import Mathlib

/-!
Verification of the `coba` learners module (`coba/learners.py`).

The Python code is shallowly embedded over exact rationals: every float
arithmetic operation of the source (`+`, `-`, `*`, `/`, comparisons and the
explicit 4-decimal `round`) is modelled by the corresponding exact operation
on `ℚ`.  Fallible operations (dictionary `pop` on a missing key, division by
`len([])`, the root-finder ending with `lmbda = None`) are modelled with
`Option`/`Except`.  Actions, contexts and keys are opaque equality types in
the source and are modelled as natural numbers (contexts as `Option ℕ`,
since a context may be absent).
-/

namespace Coba

abbrev Act := ℕ
abbrev Ctx := Option ℕ
abbrev Key := ℕ

/-- Round-half-to-even on rationals: the semantics of Python's built-in
`round` applied to the scaled value (banker's rounding). -/
def rhe (q : ℚ) : ℤ :=
  if q - ⌊q⌋ < 1/2 then ⌊q⌋
  else if 1/2 < q - ⌊q⌋ then ⌊q⌋ + 1
  else if ⌊q⌋ % 2 = 0 then ⌊q⌋ else ⌊q⌋ + 1

/-- `round4 q` models Python's `round(q, 4)`. -/
def round4 (q : ℚ) : ℚ := (rhe (q * 10000) : ℚ) / 10000

/-- Python's `max` on a nonempty list (the learners only apply it to
nonempty lists; the `[]` case is guarded at each call site). -/
def pymaxD : List ℚ → ℚ
  | [] => 0
  | x :: xs => xs.foldl max x

/-- Python's `min` on a nonempty list. -/
def pyminD : List ℚ → ℚ
  | [] => 0
  | x :: xs => xs.foldl min x

/-- One-hot distribution over `n` actions: `[int(i == k) for i in range(n)]`. -/
def oneHot (n k : ℕ) : List ℚ := (List.range n).map (fun i => if i = k then 1 else 0)

section ListHelpers

theorem foldl_max_le_mem (xs : List ℚ) (x : ℚ) : x ≤ xs.foldl max x := by
  induction xs generalizing x with
  | nil => exact le_refl x
  | cons y ys ih => exact le_trans (le_max_left x y) (ih (max x y))

theorem foldl_max_mem (xs : List ℚ) (x : ℚ) : xs.foldl max x = x ∨ xs.foldl max x ∈ xs := by
  induction xs generalizing x with
  | nil => exact Or.inl rfl
  | cons y ys ih =>
    simp only [List.foldl]
    rcases ih (max x y) with h | h
    · rcases max_choice x y with hm | hm
      · exact Or.inl (h.trans hm)
      · exact Or.inr (by rw [h, hm]; exact List.mem_cons_self y ys)
    · exact Or.inr (List.mem_cons_of_mem _ h)

/-- `pymaxD` of a nonempty list is an element of the list. -/
theorem pymaxD_mem (xs : List ℚ) (h : xs ≠ []) : pymaxD xs ∈ xs := by
  cases xs with
  | nil => exact absurd rfl h
  | cons x ys =>
    rcases foldl_max_mem ys x with h1 | h1
    · simp [pymaxD, h1]
    · exact List.mem_cons_of_mem _ (by simpa [pymaxD] using h1)

/-- Summing a list of the shape `f + g` pointwise splits. -/
theorem sum_map_add (l : List α) (f g : α → ℚ) :
    (l.map (fun a => f a + g a)).sum = (l.map f).sum + (l.map g).sum := by
  induction l with
  | nil => simp
  | cons x xs ih => simp [ih]; ring

/-- Summing an indicator of equality counts occurrences. -/
theorem sum_map_ite_eq (l : List Act) (b : Act) :
    (l.map (fun a => if a = b then (1 : ℚ) else 0)).sum = l.count b := by
  induction l with
  | nil => simp
  | cons x xs ih =>
    by_cases h : x = b
    · simp [h, ih, List.count_cons]; ring
    · simp [h, ih, List.count_cons, Ne.symm h]

/-- Summing `indicator/|S| * c` over `range n`, where `S` is the set of
indices of `range n` satisfying `p`, gives `c` whenever `S` is nonempty. -/
theorem sum_indicator_filter (n : ℕ) (p : ℕ → Prop) [DecidablePred p] (c : ℚ)
    (h : ((List.range n).filter (fun i => decide (p i))).length ≠ 0) :
    ((List.range n).map (fun i =>
      (if p i then (1:ℚ) else 0) / ((List.range n).filter (fun i => decide (p i))).length * c)).sum
      = c := by
  set S := (List.range n).filter (fun i => decide (p i)) with hS
  have key : ∀ (l : List ℕ), (l.map (fun i => (if p i then (1:ℚ) else 0) / S.length * c)).sum
      = (l.filter (fun i => decide (p i))).length * ((1:ℚ) / S.length * c) := by
    intro l
    induction l with
    | nil => simp
    | cons x xs ih =>
      by_cases hx : p x
      · simp [hx, ih, List.filter_cons, Nat.cast_add]
        push_cast
        ring
      · simp [hx, ih, List.filter_cons]
  have := key (List.range n)
  rw [← hS] at this
  rw [this]
  have hQ : (S.length : ℚ) ≠ 0 := by exact_mod_cast h
  field_simp

end ListHelpers

/-! ### RandomLearner

`predict` returns `[1/len(actions)] * len(actions)`; on an empty action
list Python raises `ZeroDivisionError`, modelled by `none`.  `learn` is a
no-op. -/

/-- The uniform distribution the source builds (total version, used when a
`RandomLearner` serves as a Corral base learner, where the action list is
always the nonempty list handed to `CorralLearner.predict`). -/
def randomDist (actions : List Act) : List ℚ :=
  List.replicate actions.length (1 / actions.length)

/-- `RandomLearner.predict`: `none` models the `ZeroDivisionError` raised by
`1/len(actions)` on an empty list. -/
def randomPredict (actions : List Act) : Option (List ℚ) :=
  if actions = [] then none else some (randomDist actions)

/-! ### EpsilonLearner -/

structure EpsState where
  eps : ℚ
  includeCtx : Bool
  N : Ctx × Act → ℕ
  Q : Ctx × Act → ℚ

/-- `EpsilonLearner._key`. -/
def epsKey (st : EpsState) (c : Ctx) (a : Act) : Ctx × Act :=
  (if st.includeCtx then c else none, a)

/-- A freshly constructed `EpsilonLearner`: both lookup tables are
`defaultdict(int)`, i.e. every entry reads as `0`. -/
def epsInit (eps : ℚ) (ic : Bool) : EpsState :=
  { eps := eps, includeCtx := ic, N := fun _ => 0, Q := fun _ => 0 }

/-- The `values` list of `EpsilonLearner.predict`: one table lookup per
action (the source's `self._Q[key]` reads through a `defaultdict(int)`, so
values are never `None` and `max_value` is just their maximum). -/
def epsValues (st : EpsState) (c : Ctx) (actions : List Act) : List ℚ :=
  actions.map (fun a => st.Q (epsKey st c a))

/-- `max_indexes` of `EpsilonLearner.predict`. -/
def epsMaxIdx (st : EpsState) (c : Ctx) (actions : List Act) : List ℕ :=
  (List.range (epsValues st c actions).length).filter
    (fun i => (epsValues st c actions).getD i 0 = pymaxD (epsValues st c actions))

/-- `EpsilonLearner.predict`.  `none` models the `ValueError` raised by
`max` over an empty generator when `actions` is empty. -/
def epsPredict (st : EpsState) (k : Key) (c : Ctx) (actions : List Act) :
    Option (List ℚ) :=
  if actions = [] then none else
    some (List.zipWith (· + ·)
      (List.replicate actions.length (1 / actions.length * st.eps))
      ((List.range actions.length).map
        (fun i => (if i ∈ epsMaxIdx st c actions then (1:ℚ) else 0)
          / (epsMaxIdx st c actions).length * (1 - st.eps))))

/-- `EpsilonLearner.learn`. -/
def epsLearn (st : EpsState) (k : Key) (c : Ctx) (a : Act) (reward p : ℚ) : EpsState :=
  let sa := epsKey st c a
  let alpha : ℚ := 1 / (st.N sa + 1)
  let oldQ := st.Q sa
  { st with
    Q := fun x => if x = sa then (1 - alpha) * oldQ + alpha * reward else st.Q x
    N := fun x => if x = sa then st.N x + 1 else st.N x }

/-! ### UcbTunedLearner

The confidence-bound score `m[a] + _Avg_R_UCB(a)` involves `math.log` and
`math.sqrt`, which take irrational values; the embedding therefore treats
the additive confidence term as an arbitrary rational-valued function
`bound` of the learner state and the action, and every theorem below is
proved for *every* such function, hence in particular for the source's
`sqrt(ln(n)/n_j * min(1/4, V_j))` (none of the claims depend on the value
of the confidence term).  `OnlineVariance` lives in `coba/statistics.py`,
which is not part of the provided sources. -/

/-- Modelled from the spec: `coba.statistics.OnlineVariance` ("running
count, mean, sum-of-squares; updated incrementally, never reset") — the
source file `coba/statistics.py` is not included in the repository
snapshot.  Standard Welford accumulator. -/
structure VarState where
  n : ℕ
  mean : ℚ
  m2 : ℚ

/-- Modelled from the spec: one incremental `OnlineVariance.update`. -/
def varUpdate (v : VarState) (x : ℚ) : VarState :=
  let n' := v.n + 1
  let δ := x - v.mean
  let mean' := v.mean + δ / n'
  { n := n', mean := mean', m2 := v.m2 + δ * (x - mean') }

structure UcbState where
  initA : ℕ
  t : ℕ
  s : Act → ℕ
  m : Act → Option ℚ
  v : Act → VarState

/-- A freshly constructed `UcbTunedLearner`. -/
def ucbInit : UcbState :=
  { initA := 0, t := 0, s := fun _ => 0, m := fun _ => none
    v := fun _ => { n := 0, mean := 0, m2 := 0 } }

/-- The `values` list of the steady-state branch: `m[a] + bound` when the
action has an entry, `None` otherwise. -/
def ucbValues (bound : UcbState → Act → ℚ) (st : UcbState) (actions : List Act) :
    List (Option ℚ) :=
  actions.map (fun a => (st.m a).map (fun mv => mv + bound st a))

/-- `max_value`: `None` when all values are `None`, else the maximum of
the non-`None` ones. -/
def ucbMaxValue (bound : UcbState → Act → ℚ) (st : UcbState) (actions : List Act) :
    Option ℚ :=
  if (ucbValues bound st actions).all (· = none) then none
  else some (pymaxD ((ucbValues bound st actions).filterMap id))

/-- `max_indexes` of the steady-state branch. -/
def ucbMaxIdx (bound : UcbState → Act → ℚ) (st : UcbState) (actions : List Act) :
    List ℕ :=
  (List.range (ucbValues bound st actions).length).filter
    (fun i => (ucbValues bound st actions).getD i none = ucbMaxValue bound st actions)

/-- `UcbTunedLearner.predict` (the action distribution together with the
mutated state; `_init_a` is incremented by the warm-up branch).  `none`
models the `ValueError` raised by `max` over an empty generator when the
steady-state branch meets an empty action list. -/
def ucbPredict (bound : UcbState → Act → ℚ) (st : UcbState) (k : Key) (c : Ctx)
    (actions : List Act) : Option (List ℚ) × UcbState :=
  if st.initA < actions.length then
    (some (oneHot actions.length st.initA), { st with initA := st.initA + 1 })
  else if actions = [] then (none, st)
  else
    (some ((List.range actions.length).map
      (fun i => (if i ∈ ucbMaxIdx bound st actions then (1:ℚ) else 0)
        / (ucbMaxIdx bound st actions).length)), st)

/-- `UcbTunedLearner.learn`.  The source performs no validation whatsoever
on `reward`; the update is total. -/
def ucbLearn (st : UcbState) (k : Key) (c : Ctx) (a : Act) (reward p : ℚ) : UcbState :=
  let mNew : ℚ := match st.m a with
    | none => reward
    | some old => (1 - 1 / st.s a) * old + 1 / st.s a * reward
  { st with
    m := fun x => if x = a then some mNew else st.m x
    t := st.t + 1
    s := fun x => if x = a then st.s x + 1 else st.s x
    v := fun x => if x = a then varUpdate (st.v x) reward else st.v x }

/-! ### CorralLearner

`CorralLearner` owns a list of base learners (any `Learner`), a seeded
random source (`coba.random.CobaRandom`, whose file is not part of the
repository snapshot) and the mixture state.  The embedding is parametric:

* base learners are an arbitrary type `β` with a `predictB`/`learnB`
  behaviour (the `Learner` contract);
* the random source's `choice(actions, predict)` is modelled by letting the
  reachability relation quantify over the list of sampled actions, one per
  base learner, each a member of `actions` (Modelled from the spec:
  "Random source: `choice(candidates, weights) -> element`, deterministic
  given a seed" — reachability ranges over all seeds);
* the Newton loop of `newtons_zero` is a `while True:` with no cap, hence
  possibly nonterminating; the embedding gives it `fuel`, and the `none`
  result of `logBarrier` covers both the source crashing with a `TypeError`
  (`lmbda` stays `None` and is then used in arithmetic) and its looping
  beyond the given fuel. -/

/-- `f` of `_log_barrier_omd`:
`sum(1/((1/p) + eta*(loss-l)))` over `zip(ps, etas, losses)`. -/
def fF (ps etas losses : List ℚ) (l : ℚ) : ℚ :=
  ((ps.zip (etas.zip losses)).map (fun x => 1 / (1 / x.1 + x.2.1 * (x.2.2 - l)))).sum

/-- `df` of `_log_barrier_omd`. -/
def dfF (ps etas losses : List ℚ) (l : ℚ) : ℚ :=
  ((ps.zip (etas.zip losses)).map (fun x => x.2.1 / (1 / x.1 + x.2.1 * (x.2.2 - l)) ^ 2)).sum

/-- `denom_zeros`: `((-1/p)-(eta*loss)) / -eta` per base learner. -/
def denomZeros (ps etas losses : List ℚ) : List ℚ :=
  (ps.zip (etas.zip losses)).map (fun x => (-1 / x.1 - x.2.1 * x.2.2) / (-x.2.1))

/-- One un-damped Newton update `x -= (f(x)-1)/df(x)` from the body of the
`while True:` loop of `newtons_zero`. -/
def newtonStep (ps etas losses : List ℚ) (x : ℚ) : ℚ :=
  x - (fF ps etas losses x - 1) / dfF ps etas losses x

/-- The `while True:` loop of `newtons_zero`, given `fuel` iterations: the
source has no iteration cap, so `none` here means the source is *still
looping* after `fuel` rounds.  Each round first updates `x`, then tests
`round(f(x), 4) == 1`. -/
def newtonLoop (ps etas losses : List ℚ) : ℕ → ℚ → Option ℚ
  | 0, _ => none
  | fuel + 1, x =>
    let x' := newtonStep ps etas losses x
    if round4 (fF ps etas losses x') = 1 then some x' else newtonLoop ps etas losses fuel x'

/-- `newtons_zero(l, r)`: the bracket is rejected up front when
`(f(l+.0001)-1) * (f(r-.00001)-1) >= 0`, otherwise Newton starts from the
midpoint. -/
def newtonsZero (ps etas losses : List ℚ) (fuel : ℕ) (l r : ℚ) : Option ℚ :=
  if (fF ps etas losses (l + 1/10000) - 1) * (fF ps etas losses (r - 1/100000) - 1) ≥ 0
  then none
  else newtonLoop ps etas losses fuel ((l + r) / 2)

/-- Insertion into an ascending list (for Python's `sorted`). -/
def insertAsc (x : ℚ) : List ℚ → List ℚ
  | [] => [x]
  | y :: ys => if x ≤ y then x :: y :: ys else y :: insertAsc x ys

/-- Python's `sorted` on rationals (insertion sort). -/
def sortAsc : List ℚ → List ℚ
  | [] => []
  | x :: xs => insertAsc x (sortAsc xs)

/-- The consecutive bracket pairs of `_log_barrier_omd`:
`sorted(filter(min<=z<=max, set(denom_zeros + [min_loss, max_loss])))`
zipped with its own tail. -/
def bracketPairs (ps etas losses : List ℚ) : List (ℚ × ℚ) :=
  let mn := pyminD losses
  let mx := pymaxD losses
  let brackets := sortAsc
    (((denomZeros ps etas losses ++ [mn, mx]).dedup).filter (fun z => decide (mn ≤ z ∧ z ≤ mx)))
  brackets.zip brackets.tail

/-- The `for l_brack, r_brack in zip(...)` loop with its `break`: the first
bracket whose Newton search returns a root wins. -/
def scanB (ps etas losses : List ℚ) (fuel : ℕ) : List (ℚ × ℚ) → Option ℚ
  | [] => none
  | (l, r) :: rest =>
    match newtonsZero ps etas losses fuel l r with
    | some x => some x
    | none => scanB ps etas losses fuel rest

/-- The `lmbda` produced by `_log_barrier_omd`: the all-equal closed form,
then the two boundary candidates, then the bracket scan.  `none` models the
source reaching `lmbda = None` (which it only reports by `print` before
crashing with a `TypeError` in the final comprehension) or still looping. -/
def lmbdaOf (fuel : ℕ) (ps etas losses : List ℚ) : Option ℚ :=
  if losses = [] then none
  else
    let mn := pyminD losses
    let mx := pymaxD losses
    let dz := denomZeros ps etas losses
    if mn = mx then some mn
    else if mn ∉ dz ∧ round4 (fF ps etas losses mn) = 1 then some mn
    else if mx ∉ dz ∧ round4 (fF ps etas losses mx) = 1 then some mx
    else scanB ps etas losses fuel (bracketPairs ps etas losses)

/-- `_log_barrier_omd`: the new weights
`[max(1/((1/p) + eta*(loss-lmbda)), .00001)]`. -/
def logBarrier (fuel : ℕ) (ps etas losses : List ℚ) : Option (List ℚ) :=
  (lmbdaOf fuel ps etas losses).map fun lm =>
    (ps.zip (etas.zip losses)).map
      (fun x => max (1 / (1 / x.1 + x.2.1 * (x.2.2 - lm))) (1 / 100000))

/-- The importance-weighted per-base losses of `CorralLearner.learn`:
`[loss/probability * int(act==action) for act in base_actions]`. -/
def iwLosses (loss prob : ℚ) (bacts : List Act) (action : Act) : List ℚ :=
  bacts.map (fun act => loss / prob * (if act = action then 1 else 0))

structure CorralState (β : Type) where
  gamma : ℚ
  beta : ℚ
  etaInit : ℚ
  etas : List ℚ
  rhos : List ℚ
  ps : List ℚ
  pbars : List ℚ
  bases : List β
  bActs : Key → Option (List Act)
  bPreds : Key → Option (List ℚ)

/-- `CorralLearner.__init__` with the derived constants `gamma = 1/T` and
`beta = 1/exp(1/log(T))` passed in already evaluated (they are irrational
for finite `T`; for the default `T = inf` they evaluate exactly, see
`gammaInf`/`betaInf`). -/
def corralInit (bases : List β) (γ βc η : ℚ) : CorralState β :=
  let M := bases.length
  { gamma := γ, beta := βc, etaInit := η
    etas := List.replicate M η
    rhos := List.replicate M ((2 * M : ℕ) : ℚ)
    ps := List.replicate M (1 / (M : ℚ))
    pbars := List.replicate M (1 / (M : ℚ))
    bases := bases
    bActs := fun _ => none
    bPreds := fun _ => none }

/-- With the default time horizon `T = math.inf` the source computes
`self._gamma = 1/T`, i.e. `1/inf = 0.0` exactly in IEEE arithmetic. -/
def gammaInf : ℚ := 0

/-- With `T = math.inf` the source computes
`self._beta = 1/exp(1/log(T)) = 1/exp(1/inf) = 1/exp(0) = 1.0` exactly in
IEEE arithmetic. -/
def betaInf : ℚ := 1

/-- A `CorralLearner` constructed with all defaults (`T = math.inf`). -/
def corralInitInf (bases : List β) (η : ℚ) : CorralState β :=
  corralInit bases gammaInf betaInf η

/-- `CorralLearner.predict`.  `chosen` is the list of actions sampled by
`self._random.choice(actions, predict)`, one per base learner (the random
source is not in the repository snapshot; reachability quantifies over all
its possible outputs).  The returned distribution weights each candidate
action by the total `p_bar`-mass of the base learners whose sampled action
it equals, and the per-key transient maps are filled in. -/
def corralPredict (predictB : β → Key → Ctx → List Act → List ℚ × β) (chosen : List Act)
    (st : CorralState β) (k : Key) (c : Ctx) (actions : List Act) :
    List ℚ × CorralState β :=
  let pb := st.bases.map (fun b => predictB b k c actions)
  let predicts := pb.map Prod.fst
  let bpreds := List.zipWith (fun a d => d.getD (actions.findIdx (fun x => x == a)) 0)
    chosen predicts
  let out := actions.map
    (fun a => (List.zipWith (fun pbr ba => pbr * (if a = ba then (1:ℚ) else 0)) st.pbars chosen).sum)
  (out,
    { st with
      bases := pb.map Prod.snd
      bActs := fun q => if q = k then some chosen else st.bActs q
      bPreds := fun q => if q = k then some bpreds else st.bPreds q })

/-- The two failure conditions `CorralLearner.learn` can actually produce:
`keyError` models the `KeyError` raised by `dict.pop` on an unknown key
(raised before any state is mutated); `rootSearchFailure` models the
root search producing no `lmbda` — in the source that is *not* a structured
error: the code prints diagnostics and then either crashes with a raw
`TypeError` (`eta*(loss - None)`) or never leaves the Newton loop. -/
inductive PyErr where
  | keyError
  | rootSearchFailure
  deriving DecidableEq

/-- `CorralLearner.learn`. -/
def corralLearn (learnB : β → Key → Ctx → Act → ℚ → ℚ → β) (fuel : ℕ)
    (st : CorralState β) (k : Key) (c : Ctx) (action : Act) (reward prob : ℚ) :
    Except PyErr (CorralState β) :=
  let loss := 1 - reward
  match st.bActs k with
  | none => .error .keyError
  | some bacts =>
    match st.bPreds k with
    | none => .error .keyError
    | some bpreds =>
      let losses := iwLosses loss prob bacts action
      let bases' := List.zipWith (fun b x => learnB b k c x.1 (1 - x.2.1) x.2.2)
        st.bases (bacts.zip (losses.zip bpreds))
      match logBarrier fuel st.ps st.etas losses with
      | none => .error .rootSearchFailure
      | some ps' =>
        let M := st.bases.length
        let pbars' := ps'.map (fun p => (1 - st.gamma) * p + st.gamma * (1 / (M : ℚ)))
        let rhos' := (List.range M).map (fun i =>
          if 1 / pbars'.getD i 0 > st.rhos.getD i 0 then 2 / pbars'.getD i 0
          else st.rhos.getD i 0)
        let etas' := (List.range M).map (fun i =>
          if 1 / pbars'.getD i 0 > st.rhos.getD i 0 then st.beta * st.etas.getD i 0
          else st.etas.getD i 0)
        .ok { st with
          ps := ps', pbars := pbars', rhos := rhos', etas := etas', bases := bases'
          bActs := fun q => if q = k then none else st.bActs q
          bPreds := fun q => if q = k then none else st.bPreds q }

/-- The states a `CorralLearner` can reach from construction through any
sequence of `predict`/`learn` calls (over every behaviour of the seeded
random source and every `fuel` for the uncapped Newton loop). -/
inductive CorralReach (predictB : β → Key → Ctx → List Act → List ℚ × β)
    (learnB : β → Key → Ctx → Act → ℚ → ℚ → β) (γ βc η : ℚ) (bases0 : List β) :
    CorralState β → Prop where
  | construct : CorralReach predictB learnB γ βc η bases0 (corralInit bases0 γ βc η)
  | predictStep (s : CorralState β) (k : Key) (c : Ctx) (actions chosen : List Act) :
      CorralReach predictB learnB γ βc η bases0 s →
      chosen.length = s.bases.length →
      (∀ a ∈ chosen, a ∈ actions) →
      CorralReach predictB learnB γ βc η bases0 (corralPredict predictB chosen s k c actions).2
  | learnStep (s s' : CorralState β) (fuel : ℕ) (k : Key) (c : Ctx) (action : Act)
      (reward prob : ℚ) :
      CorralReach predictB learnB γ βc η bases0 s →
      corralLearn learnB fuel s k c action reward prob = .ok s' →
      CorralReach predictB learnB γ βc η bases0 s'

/-! ### Concrete instantiations used by several claims -/

/-- A `RandomLearner` used as a Corral base learner: stateless (`Unit`),
its `predict` is the uniform distribution. -/
def randBaseP : Unit → Key → Ctx → List Act → List ℚ × Unit :=
  fun _ _ _ acts => (randomDist acts, ())

/-- A `RandomLearner`'s `learn`: a no-op. -/
def noopBaseL : Unit → Key → Ctx → Act → ℚ → ℚ → Unit :=
  fun _ _ _ _ _ _ => ()

/-- Fresh `CorralLearner([RandomLearner(), RandomLearner()], eta=10000)`
with default `T = inf`. -/
def uC0 : CorralState Unit := corralInit [(), ()] gammaInf betaInf 10000

/-- `uC0` after `predict(key=0, context=None, actions=[0,1])` in which the
random source sampled action `1` for the first base learner and action `0`
for the second. -/
def uC1 : CorralState Unit := (corralPredict randBaseP [1, 0] uC0 0 none [0, 1]).2

section RheBasics

theorem rhe_le_floor_add_one (q : ℚ) : rhe q ≤ ⌊q⌋ + 1 := by
  unfold rhe
  split_ifs <;> omega

theorem rhe_ne_of_neg {q : ℚ} (hq : q < 0) : rhe q ≠ 10000 := by
  have h1 : (⌊q⌋ : ℚ) ≤ q := Int.floor_le q
  have h2 : (⌊q⌋ : ℚ) < 0 := lt_of_le_of_lt h1 hq
  have h3 : ⌊q⌋ < 0 := by exact_mod_cast h2
  have := rhe_le_floor_add_one q
  omega

/-- If `q < 0` then `round(q, 4)` is not `1`. -/
theorem round4_ne_one_of_neg {q : ℚ} (hq : q < 0) : round4 q ≠ 1 := by
  intro h
  unfold round4 at h
  have h10 : ((rhe (q * 10000) : ℚ)) = 10000 := by
    field_simp at h
    exact_mod_cast h
  have : rhe (q * 10000) = 10000 := by exact_mod_cast h10
  exact rhe_ne_of_neg (by nlinarith) this

end RheBasics

/-! ### Claim C2: the Newton loop of `newtons_zero` has no iteration cap.

On the input state `p = [1/10, 2/5]`, `eta = [1000, 10000]`,
`losses = [0, 1/50]`, the first bracket `(0, 1/100)` passes the sign check,
so the source enters `while True:`; the very first Newton update jumps past
both poles of `f` (the largest is at `81/4000`), after which every iterate
strictly increases and `f` stays negative, so `round(f(x), 4) == 1` never
holds and the loop runs forever (the source merely prints the iteration
count every 30000 rounds). -/

def ps2 : List ℚ := [1/10, 2/5]
def es2 : List ℚ := [1000, 10000]
def ls2 : List ℚ := [0, 1/50]

theorem fF2_closed (x : ℚ) :
    fF ps2 es2 ls2 x = 1 / (10 - 1000 * x) + 1 / (405/2 - 10000 * x) := by
  show (1 / (1 / (1/10 : ℚ) + 1000 * (0 - x)) + (1 / (1 / (2/5 : ℚ) + 10000 * (1/50 - x)) + 0)) = _
  norm_num
  ring_nf

theorem dfF2_closed (x : ℚ) :
    dfF ps2 es2 ls2 x = 1000 / (10 - 1000 * x) ^ 2 + 10000 / (405/2 - 10000 * x) ^ 2 := by
  show (1000 / (1 / (1/10 : ℚ) + 1000 * (0 - x)) ^ 2 + (10000 / (1 / (2/5 : ℚ) + 10000 * (1/50 - x)) ^ 2 + 0)) = _
  norm_num
  ring_nf

theorem step2_props (x : ℚ) (hx : 81/4000 < x) :
    x < newtonStep ps2 es2 ls2 x ∧ fF ps2 es2 ls2 x < 0 := by
  have hd1 : 10 - 1000 * x < 0 := by linarith
  have hd2 : 405/2 - 10000 * x < 0 := by linarith
  have hf : fF ps2 es2 ls2 x < 0 := by
    rw [fF2_closed]
    have := one_div_neg.mpr hd1
    have := one_div_neg.mpr hd2
    linarith
  have hdf : 0 < dfF ps2 es2 ls2 x := by
    rw [dfF2_closed]
    have hn1 : (10 - 1000 * x) ≠ 0 := ne_of_lt hd1
    have hn2 : (405/2 - 10000 * x) ≠ 0 := ne_of_lt hd2
    have e1 : (0:ℚ) < (10 - 1000 * x) ^ 2 :=
      lt_of_le_of_ne (sq_nonneg _) (Ne.symm (pow_ne_zero 2 hn1))
    have e2 : (0:ℚ) < (405/2 - 10000 * x) ^ 2 :=
      lt_of_le_of_ne (sq_nonneg _) (Ne.symm (pow_ne_zero 2 hn2))
    have := div_pos (show (0:ℚ) < 1000 by norm_num) e1
    have := div_pos (show (0:ℚ) < 10000 by norm_num) e2
    linarith
  constructor
  · unfold newtonStep
    have hneg : (fF ps2 es2 ls2 x - 1) / dfF ps2 es2 ls2 x < 0 :=
      div_neg_of_neg_of_pos (by linarith) hdf
    linarith
  · exact hf

theorem x1_above : (81/4000 : ℚ) < newtonStep ps2 es2 ls2 (1/200) := by
  unfold newtonStep
  rw [fF2_closed, dfF2_closed]
  norm_num

theorem iter2_above (n : ℕ) :
    81/4000 < (newtonStep ps2 es2 ls2)^[n] (newtonStep ps2 es2 ls2 (1/200)) := by
  induction n with
  | zero => exact x1_above
  | succ m ih =>
    rw [Function.iterate_succ_apply']
    exact lt_trans ih (step2_props _ ih).1

theorem newtonLoop2_none : ∀ (fuel : ℕ) (x : ℚ), 81/4000 < x →
    newtonLoop ps2 es2 ls2 fuel x = none := by
  intro fuel
  induction fuel with
  | zero => intro x _; rfl
  | succ m ih =>
    intro x hx
    have hx' : 81/4000 < newtonStep ps2 es2 ls2 x := lt_trans hx (step2_props x hx).1
    have hne : round4 (fF ps2 es2 ls2 (newtonStep ps2 es2 ls2 x)) ≠ 1 :=
      round4_ne_one_of_neg (step2_props _ hx').2
    show (if round4 (fF ps2 es2 ls2 (newtonStep ps2 es2 ls2 x)) = 1
          then some (newtonStep ps2 es2 ls2 x)
          else newtonLoop ps2 es2 ls2 m (newtonStep ps2 es2 ls2 x)) = none
    rw [if_neg hne]
    exact ih _ hx'

/-- C2: the claim asserts that the damped Newton–Raphson loop inside
`newtons_zero` carries an iteration cap so that every per-bracket search
terminates after a bounded number of iterations.  The source's loop is
`while True:` with no cap, and on the concrete state
`p = [1/10, 2/5]`, `eta = [1000, 10000]`, `losses = [0, 1/50]` the first
bracket `(0, 1/100)` passes the sign check (first conjunct, so the source
enters the loop), yet no Newton iterate ever satisfies the exit condition
`round(f(x), 4) == 1` (second conjunct), and the search returns no result
for any number of iterations (third conjunct): the loop runs forever
instead of failing. -/
theorem C2_newton_no_iteration_cap :
    (fF ps2 es2 ls2 (0 + 1/10000) - 1) * (fF ps2 es2 ls2 (1/100 - 1/100000) - 1) < 0
    ∧ (∀ n : ℕ, round4 (fF ps2 es2 ls2 ((newtonStep ps2 es2 ls2)^[n + 1] ((0 + 1/100) / 2))) ≠ 1)
    ∧ (∀ fuel : ℕ, newtonsZero ps2 es2 ls2 fuel 0 (1/100) = none) := by
  have hsign : (fF ps2 es2 ls2 (0 + 1/10000) - 1) * (fF ps2 es2 ls2 (1/100 - 1/100000) - 1) < 0 := by
    rw [fF2_closed, fF2_closed]
    norm_num
  refine ⟨hsign, ?_, ?_⟩
  · intro n
    have h : (newtonStep ps2 es2 ls2)^[n + 1] ((0 + 1/100) / 2)
        = (newtonStep ps2 es2 ls2)^[n] (newtonStep ps2 es2 ls2 (1/200)) := by
      rw [Function.iterate_succ_apply]
      norm_num
    rw [h]
    exact round4_ne_one_of_neg (step2_props _ (iter2_above n)).2
  · intro fuel
    show (if (fF ps2 es2 ls2 (0 + 1/10000) - 1) * (fF ps2 es2 ls2 (1/100 - 1/100000) - 1) ≥ 0
          then none
          else newtonLoop ps2 es2 ls2 fuel ((0 + 1/100) / 2)) = none
    rw [if_neg (not_le.mpr hsign)]
    have : ((0 : ℚ) + 1/100) / 2 = 1/200 := by norm_num
    rw [this]
    cases fuel with
    | zero => rfl
    | succ m =>
      have hne : round4 (fF ps2 es2 ls2 (newtonStep ps2 es2 ls2 (1/200))) ≠ 1 :=
        round4_ne_one_of_neg (step2_props _ x1_above).2
      show (if round4 (fF ps2 es2 ls2 (newtonStep ps2 es2 ls2 (1/200))) = 1
            then some (newtonStep ps2 es2 ls2 (1/200))
            else newtonLoop ps2 es2 ls2 m (newtonStep ps2 es2 ls2 (1/200))) = none
      rw [if_neg hne]
      exact newtonLoop2_none m _ x1_above

theorem bpC1 : bracketPairs [1/2, 1/2] [10000, 10000] [0, 1/20000] = [(0, 1/20000)] := by
  unfold bracketPairs denomZeros
  norm_num [pyminD, pymaxD, List.dedup_eq_self.mpr, List.filter, sortAsc, insertAsc]

theorem lbC1 (fuel : ℕ) : lmbdaOf fuel [1/2, 1/2] [10000, 10000] [0, 1/20000] = none := by
  unfold lmbdaOf
  rw [bpC1]
  norm_num [pyminD, pymaxD, denomZeros, fF, round4, rhe, scanB, newtonsZero]

theorem lbFullC1 (fuel : ℕ) : logBarrier fuel [1/2, 1/2] [10000, 10000] [0, 1/20000] = none := by
  unfold logBarrier
  rw [lbC1]
  rfl

/-- C1: if the log-barrier root search does not converge, the source does
*not* fail with an explicit OptimizationDivergence error.  On the reachable
state `uC1` (fresh Corral over two RandomLearners with `eta = 10000`, after
one `predict`), the `learn` call with `reward = 19999/20000`,
`probability = 1` produces `losses = [0, 1/20000]`; the only bracket
`(0, 1/20000)` is rejected by the sign check, `lmbda` stays `None`, and the
source prints its diagnostics and then crashes with a raw `TypeError`
(`eta*(loss - None)`) — modelled by `rootSearchFailure`, which the
embedding documents as an unstructured crash, not a typed
OptimizationDivergence condition. -/
theorem C1_root_search_failure_is_unstructured :
    CorralReach randBaseP noopBaseL gammaInf betaInf 10000 [(), ()] uC1
    ∧ (∀ fuel : ℕ, logBarrier fuel [1/2, 1/2] [10000, 10000] [0, 1/20000] = none)
    ∧ (∀ fuel : ℕ,
        corralLearn noopBaseL fuel uC1 0 none 0 (19999/20000) 1 = .error .rootSearchFailure) := by
  refine ⟨?_, lbFullC1, ?_⟩
  · exact CorralReach.predictStep uC0 0 none [0, 1] [1, 0] CorralReach.construct rfl (by decide)
  · intro fuel
    have h := lbFullC1 fuel
    norm_num at h
    simp [corralLearn, uC1, uC0, corralPredict, corralInit, randBaseP, randomDist, iwLosses,
      gammaInf, betaInf, List.replicate]
    norm_num [h]

/-! ### Claim C3: the rewards fed to the base learners -/

/-- `RandomLearner`-like base learners that record every reward value passed
to their `learn`, exposing exactly what `CorralLearner.learn` feeds them. -/
def recP : List ℚ → Key → Ctx → List Act → List ℚ × List ℚ :=
  fun l _ _ acts => (randomDist acts, l)

/-- Recording `learn`: appends the received reward. -/
def recL : List ℚ → Key → Ctx → Act → ℚ → ℚ → List ℚ :=
  fun l _ _ _ r _ => l ++ [r]

/-- Fresh Corral over two recording base learners, `eta = 1/100000`,
default `T = inf`. -/
def tC0 : CorralState (List ℚ) := corralInit [[], []] gammaInf betaInf (1/100000)

/-- `tC0` after `predict(key=0, context=None, actions=[0,1])` where the
random source sampled action `0` for the first base learner and `1` for the
second. -/
def tC1 : CorralState (List ℚ) := (corralPredict recP [0, 1] tC0 0 none [0, 1]).2

theorem lbC3 : lmbdaOf 0 [1/2, 1/2] [1/100000, 1/100000] [2, 0] = some 0 := by
  unfold lmbdaOf
  norm_num [pyminD, pymaxD, denomZeros, fF, round4, rhe]
  exact fun hcontra => absurd hcontra (by simp)

theorem lbFullC3 :
    logBarrier 0 [1/2, 1/2] [1/100000, 1/100000] [2, 0] = some [50000/100001, 1/2] := by
  unfold logBarrier
  rw [lbC3]
  norm_num

/-- C3 counterexample: the claim asserts that the reward `1 - loss_i`
passed down to each base learner lies in `[0, 1]` whenever the incoming
reward is in `[0, 1]` and the probability is in `(0, 1]`.  False: on a
fresh Corral over two (recording) base learners, `learn` with
`reward = 0`, `probability = 1/2` and realized action equal to the first
base learner's sampled action feeds the first base learner the reward
`1 - (1-0)/(1/2) = -1 ∉ [0, 1]`. -/
theorem C3_counterexample_reward_below_zero :
    ∃ s2 : CorralState (List ℚ),
      corralLearn recL 0 tC1 0 none 0 0 (1/2) = .ok s2
      ∧ s2.bases = [[-1], [1]] ∧ ¬ ((0:ℚ) ≤ -1) := by
  have h := lbFullC3
  norm_num at h
  simp [corralLearn, tC1, tC0, corralPredict, corralInit, recP, recL, randomDist, iwLosses,
    gammaInf, betaInf, List.replicate]
  norm_num [h]

/-- C3 (amended): in `CorralLearner.learn` the importance-weighted loss for
base learner `i` is `(loss/probability)` if that learner's sampled action
equals the externally realized action and `0` otherwise (first conjunct,
exactly as the claim states), and the reward `1 - loss_i` fed to base
learner `i` lies in the interval `[1 - 1/probability, 1]` — not `[0, 1]` —
whenever the incoming reward is in `[0, 1]` and the probability is in
`(0, 1]`. -/
theorem C3_importance_weighted_feed (reward prob : ℚ) (bacts : List Act) (action : Act)
    (hr0 : 0 ≤ reward) (hr1 : reward ≤ 1) (hp0 : 0 < prob) (hp1 : prob ≤ 1) :
    iwLosses (1 - reward) prob bacts action
      = bacts.map (fun a => if a = action then (1 - reward) / prob else 0)
    ∧ ∀ L ∈ iwLosses (1 - reward) prob bacts action,
        1 - 1 / prob ≤ 1 - L ∧ 1 - L ≤ 1 := by
  constructor
  · simp only [iwLosses, mul_ite, mul_one, mul_zero]
  · intro L hL
    obtain ⟨a, _, rfl⟩ := List.mem_map.mp hL
    by_cases hcase : a = action
    · have hval : ((1 - reward) / prob * if a = action then (1:ℚ) else 0) = (1 - reward) / prob := by
        rw [if_pos hcase, mul_one]
      rw [hval]
      constructor
      · have h1 : (1 - reward) / prob ≤ 1 / prob := (div_le_div_right hp0).mpr (by linarith)
        linarith
      · have : 0 ≤ (1 - reward) / prob := div_nonneg (by linarith) (le_of_lt hp0)
        linarith
    · have hval : ((1 - reward) / prob * if a = action then (1:ℚ) else 0) = 0 := by
        rw [if_neg hcase, mul_zero]
      rw [hval]
      have : (1:ℚ) ≤ 1 / prob := by
        rw [le_div_iff hp0]
        linarith
      constructor <;> linarith

/-- C3 witness: the amended bounds instantiated at `reward = 1/4`,
`probability = 1/2`, sampled actions `[0, 1]`, realized action `0`. -/
theorem C3_importance_weighted_feed_witness :
    ((0:ℚ) ≤ 1/4 ∧ (1/4:ℚ) ≤ 1 ∧ (0:ℚ) < 1/2 ∧ (1/2:ℚ) ≤ 1)
    ∧ (iwLosses (1 - 1/4) (1/2) [0, 1] 0
        = [0, 1].map (fun a => if a = 0 then (1 - 1/4) / (1/2) else 0)
      ∧ ∀ L ∈ iwLosses (1 - 1/4) (1/2) [0, 1] 0,
          1 - 1 / (1/2) ≤ 1 - L ∧ 1 - L ≤ 1) :=
  ⟨by norm_num,
   C3_importance_weighted_feed (1/4) (1/2) [0, 1] 0
     (by norm_num) (by norm_num) (by norm_num) (by norm_num)⟩

/-! ### The shared concrete `learn` trace for claims C4/C5/C6/C10

Fresh `CorralLearner([RandomLearner(), RandomLearner()], eta = 3/250)` with
default `T = inf`, one `predict` (samples `[0, 1]`) and one `learn` with
`reward = 99/100`, `probability = 1`.  The root search accepts
`lmbda = min_loss = 0` from the 4-decimal test (`f(0) = 100003/100006`,
which rounds to `1.0000` but differs from `1` by about `3·10⁻⁵`), and the
resulting mixture no longer sums to `1`. -/

def sCE0 : CorralState Unit := corralInit [(), ()] gammaInf betaInf (3/250)

def sCE1 : CorralState Unit := (corralPredict randBaseP [0, 1] sCE0 0 none [0, 1]).2

theorem lbCE : lmbdaOf 0 [1/2, 1/2] [3/250, 3/250] [1/100, 0] = some 0 := by
  unfold lmbdaOf
  norm_num [pyminD, pymaxD, denomZeros, fF, round4, rhe]
  exact fun hcontra => absurd hcontra (by simp)

theorem lbFullCE :
    logBarrier 0 [1/2, 1/2] [3/250, 3/250] [1/100, 0] = some [25000/50003, 1/2] := by
  unfold logBarrier
  rw [lbCE]
  norm_num

theorem learnCE : ∃ s2 : CorralState Unit,
    corralLearn noopBaseL 0 sCE1 0 none 0 (99/100) 1 = .ok s2
    ∧ s2.ps = [25000/50003, 1/2] ∧ s2.pbars = [25000/50003, 1/2]
    ∧ s2.rhos = [4, 4] ∧ s2.etas = [3/250, 3/250]
    ∧ (∀ q, s2.bActs q = none) ∧ (∀ q, s2.bPreds q = none)
    ∧ s2.beta = 1 := by
  have h := lbFullCE
  norm_num at h
  simp [corralLearn, sCE1, sCE0, corralPredict, corralInit, randBaseP, randomDist, iwLosses,
    gammaInf, betaInf, List.replicate]
  norm_num [h]
  refine ⟨?_, ?_, ?_, ?_⟩
  · norm_num [List.range_succ]
  · norm_num [List.range_succ]
  · intro q h1 h2
    exact absurd h2 h1
  · intro q h1 h2
    exact absurd h2 h1

/-! ### Structure of a successful or failing `learn`, and reachability
invariants -/

/-- `learn` with a key absent from the transient maps fails with the
`KeyError` of `dict.pop` — raised before anything is mutated, since the
`pop` is the first state access of `learn`. -/
theorem corralLearn_missing_key {β : Type} (learnB : β → Key → Ctx → Act → ℚ → ℚ → β)
    (fuel : ℕ) (s : CorralState β) (k : Key) (c : Ctx) (action : Act) (reward prob : ℚ)
    (h : s.bActs k = none) :
    corralLearn learnB fuel s k c action reward prob = .error .keyError := by
  simp [corralLearn, h]

/-- Anatomy of a successful `learn`: the consumed per-key entries, the
root-finder output, and every field of the successor state. -/
theorem corralLearn_ok_fields {β : Type} {learnB : β → Key → Ctx → Act → ℚ → ℚ → β}
    {fuel : ℕ} {s s' : CorralState β} {k : Key} {c : Ctx} {action : Act} {reward prob : ℚ}
    (hok : corralLearn learnB fuel s k c action reward prob = .ok s') :
    ∃ bacts bpreds ps',
      s.bActs k = some bacts ∧ s.bPreds k = some bpreds
      ∧ logBarrier fuel s.ps s.etas (iwLosses (1 - reward) prob bacts action) = some ps'
      ∧ s'.gamma = s.gamma ∧ s'.beta = s.beta ∧ s'.etaInit = s.etaInit
      ∧ s'.ps = ps'
      ∧ s'.pbars = ps'.map (fun p => (1 - s.gamma) * p + s.gamma * (1 / (s.bases.length : ℚ)))
      ∧ s'.rhos = (List.range s.bases.length).map (fun i =>
          if 1 / s'.pbars.getD i 0 > s.rhos.getD i 0 then 2 / s'.pbars.getD i 0
          else s.rhos.getD i 0)
      ∧ s'.etas = (List.range s.bases.length).map (fun i =>
          if 1 / s'.pbars.getD i 0 > s.rhos.getD i 0 then s.beta * s.etas.getD i 0
          else s.etas.getD i 0)
      ∧ s'.bases = List.zipWith (fun b x => learnB b k c x.1 (1 - x.2.1) x.2.2) s.bases
          (bacts.zip ((iwLosses (1 - reward) prob bacts action).zip bpreds))
      ∧ s'.bActs = (fun q => if q = k then none else s.bActs q)
      ∧ s'.bPreds = (fun q => if q = k then none else s.bPreds q) := by
  unfold corralLearn at hok
  cases hba : s.bActs k with
  | none =>
    simp only [hba] at hok
    exact Except.noConfusion hok
  | some bacts =>
    simp only [hba] at hok
    cases hbp : s.bPreds k with
    | none =>
      simp only [hbp] at hok
      exact Except.noConfusion hok
    | some bpreds =>
      simp only [hbp] at hok
      cases hlb : logBarrier fuel s.ps s.etas (iwLosses (1 - reward) prob bacts action) with
      | none =>
        simp only [hlb] at hok
        exact Except.noConfusion hok
      | some psN =>
        simp only [hlb] at hok
        refine ⟨bacts, bpreds, psN, rfl, rfl, hlb, ?_⟩
        cases hok
        exact ⟨rfl, rfl, rfl, rfl, rfl, rfl, rfl, rfl, rfl, rfl⟩

/-- A successful root solve returns one floored weight per zipped triple. -/
theorem logBarrier_ok_props {fuel : ℕ} {ps etas losses l : List ℚ}
    (h : logBarrier fuel ps etas losses = some l) :
    l.length = min ps.length (min etas.length losses.length) ∧ ∀ p ∈ l, 1/100000 ≤ p := by
  unfold logBarrier at h
  obtain ⟨lm, _, rfl⟩ := Option.map_eq_some'.mp h
  constructor
  · simp [List.length_zip]
  · intro p hp
    obtain ⟨x, _, rfl⟩ := List.mem_map.mp hp
    exact le_max_right _ _

/-- Fields of a `CorralLearner` state that a `predict` call leaves alone. -/
theorem corralPredict_fields {β : Type} (predictB : β → Key → Ctx → List Act → List ℚ × β)
    (chosen : List Act) (s : CorralState β) (k : Key) (c : Ctx) (actions : List Act) :
    ((corralPredict predictB chosen s k c actions).2.gamma = s.gamma
      ∧ (corralPredict predictB chosen s k c actions).2.beta = s.beta
      ∧ (corralPredict predictB chosen s k c actions).2.ps = s.ps
      ∧ (corralPredict predictB chosen s k c actions).2.pbars = s.pbars
      ∧ (corralPredict predictB chosen s k c actions).2.rhos = s.rhos
      ∧ (corralPredict predictB chosen s k c actions).2.etas = s.etas)
    ∧ (corralPredict predictB chosen s k c actions).2.bases.length = s.bases.length :=
  ⟨⟨rfl, rfl, rfl, rfl, rfl, rfl⟩, by simp [corralPredict]⟩

/-- The constants and the list lengths are preserved by every reachable
transition (the per-key maps always store one entry per base learner). -/
theorem corralReach_lengths {β : Type} {predictB : β → Key → Ctx → List Act → List ℚ × β}
    {learnB : β → Key → Ctx → Act → ℚ → ℚ → β} {γ βc η : ℚ} {bases0 : List β}
    {s : CorralState β} (hr : CorralReach predictB learnB γ βc η bases0 s) :
    s.gamma = γ ∧ s.beta = βc
    ∧ s.bases.length = bases0.length
    ∧ s.etas.length = bases0.length ∧ s.rhos.length = bases0.length
    ∧ s.ps.length = bases0.length ∧ s.pbars.length = bases0.length
    ∧ (∀ k l, s.bActs k = some l → l.length = bases0.length)
    ∧ (∀ k l, s.bPreds k = some l → l.length = bases0.length) := by
  induction hr with
  | construct =>
    refine ⟨rfl, rfl, rfl, ?_, ?_, ?_, ?_, ?_, ?_⟩ <;>
      simp [corralInit]
  | predictStep s k c actions chosen hr hlen hmem ih =>
    obtain ⟨hγ, hβ, hMb, hMe, hMr, hMp, hMpb, hA, hP⟩ := ih
    refine ⟨hγ, hβ, ?_, hMe, hMr, hMp, hMpb, ?_, ?_⟩
    · simpa [corralPredict] using hMb
    · intro q l hq
      simp only [corralPredict] at hq
      by_cases hqk : q = k
      · rw [if_pos hqk] at hq
        cases hq
        omega
      · rw [if_neg hqk] at hq
        exact hA q l hq
    · intro q l hq
      simp only [corralPredict] at hq
      by_cases hqk : q = k
      · rw [if_pos hqk] at hq
        cases hq
        simp [List.length_zipWith, hlen, hMb]
      · rw [if_neg hqk] at hq
        exact hP q l hq
  | learnStep s s' fuel k c action reward prob hr hok ih =>
    obtain ⟨hγ, hβ, hMb, hMe, hMr, hMp, hMpb, hA, hP⟩ := ih
    obtain ⟨bacts, bpreds, ps', hba, hbp, hlb, hg', hb', _, hps', hpb', hr', he', hbs', hact', hprd'⟩ :=
      corralLearn_ok_fields hok
    have hbal : bacts.length = bases0.length := hA k bacts hba
    have hbpl : bpreds.length = bases0.length := hP k bpreds hbp
    have hpsl : ps'.length = bases0.length := by
      have := (logBarrier_ok_props hlb).1
      simp [iwLosses] at this
      omega
    refine ⟨hg'.trans hγ, hb'.trans hβ, ?_, ?_, ?_, ?_, ?_, ?_, ?_⟩
    · rw [hbs']
      simp [List.length_zipWith, iwLosses, hbal, hbpl, hMb]
    · rw [he']
      simp [hMb]
    · rw [hr']
      simp [hMb]
    · rw [hps']
      exact hpsl
    · rw [hpb']
      simp [hpsl]
    · intro q l hq
      simp only [hact'] at hq
      by_cases hqk : q = k
      · simp [hqk] at hq
      · rw [if_neg hqk] at hq
        exact hA q l hq
    · intro q l hq
      simp only [hprd'] at hq
      by_cases hqk : q = k
      · simp [hqk] at hq
      · rw [if_neg hqk] at hq
        exact hP q l hq

theorem getD_mem_of_lt {α : Type} (l : List α) (i : ℕ) (d : α) (h : i < l.length) :
    l.getD i d ∈ l := by
  rw [List.getD_eq_getElem l d h]
  exact List.getElem_mem h

theorem getD_map_range {α : Type} (f : ℕ → α) (n i : ℕ) (h : i < n) (d : α) :
    ((List.range n).map f).getD i d = f i := by
  simp [List.getD, List.getElem?_map, List.getElem?_range h]

theorem getD_replicate {α : Type} (x d : α) (n i : ℕ) (h : i < n) :
    (List.replicate n x).getD i d = x := by
  rw [List.getD_eq_getElem _ d (by simpa using h)]
  simp

/-- Numeric invariants of every reachable `CorralLearner` state: every raw
weight is either at least the floor `1/100000` or still at its initial
value `1/M`; the smoothed weights are exactly the
`(1-gamma)*p + gamma/M` image of the raw ones; every `rho` is positive and
every `eta` nonnegative. -/
theorem corralReach_values {β : Type} {predictB : β → Key → Ctx → List Act → List ℚ × β}
    {learnB : β → Key → Ctx → Act → ℚ → ℚ → β} {γ βc η : ℚ} {bases0 : List β}
    {s : CorralState β}
    (hγ0 : 0 ≤ γ) (hγ1 : γ ≤ 1) (hβ0 : 0 ≤ βc) (hη : 0 ≤ η)
    (hr : CorralReach predictB learnB γ βc η bases0 s) :
    (∀ p ∈ s.ps, 1/100000 ≤ p ∨ p = 1/(bases0.length : ℚ))
    ∧ s.pbars = s.ps.map (fun p => (1 - γ) * p + γ * (1/(bases0.length : ℚ)))
    ∧ (∀ r ∈ s.rhos, 0 < r)
    ∧ (∀ e ∈ s.etas, 0 ≤ e) := by
  induction hr with
  | construct =>
    refine ⟨?_, ?_, ?_, ?_⟩
    · intro p hp
      rw [List.eq_of_mem_replicate hp]
      exact Or.inr rfl
    · simp only [corralInit, List.map_replicate]
      congr 1
      ring
    · intro r hrm
      have hM := (List.mem_replicate.mp hrm).1
      rw [(List.mem_replicate.mp hrm).2]
      have : (1:ℕ) ≤ bases0.length := Nat.one_le_iff_ne_zero.mpr hM
      positivity
    · intro e hem
      rw [List.eq_of_mem_replicate hem]
      exact hη
  | predictStep s k c actions chosen hr hlen hmem ih =>
    simpa [corralPredict] using ih
  | learnStep s s' fuel k c action reward prob hr hok ih =>
    obtain ⟨hps, hpb, hrh, het⟩ := ih
    obtain ⟨hγeq, hβeq, hMb, hMe, hMr, hMp, hMpb, hA, hP⟩ := corralReach_lengths hr
    obtain ⟨bacts, bpreds, ps', hba, hbp, hlb, hg', hb', _, hps', hpb', hr', he', hbs', hact', hprd'⟩ :=
      corralLearn_ok_fields hok
    have hfloor : ∀ p ∈ ps', 1/100000 ≤ p := (logBarrier_ok_props hlb).2
    refine ⟨?_, ?_, ?_, ?_⟩
    · intro p hp
      rw [hps'] at hp
      exact Or.inl (hfloor p hp)
    · rw [hpb', hps', hγeq, hMb]
    · intro r hrm
      rw [hr'] at hrm
      obtain ⟨i, hi, rfl⟩ := List.mem_map.mp hrm
      have hiM : i < s.rhos.length := by
        rw [hMr]
        rw [hMb] at hi
        exact List.mem_range.mp hi
      have hrpos : 0 < s.rhos.getD i 0 := hrh _ (getD_mem_of_lt _ _ _ hiM)
      by_cases hcond : 1 / s'.pbars.getD i 0 > s.rhos.getD i 0
      · rw [if_pos hcond]
        have hpbpos : 0 < s'.pbars.getD i 0 := by
          have h1 : 0 < 1 / s'.pbars.getD i 0 := lt_trans hrpos hcond
          exact one_div_pos.mp h1
        positivity
      · rw [if_neg hcond]
        exact hrpos
    · intro e hem
      rw [he'] at hem
      obtain ⟨i, hi, rfl⟩ := List.mem_map.mp hem
      have hiM : i < s.etas.length := by
        rw [hMe]
        rw [hMb] at hi
        exact List.mem_range.mp hi
      have hepos : 0 ≤ s.etas.getD i 0 := het _ (getD_mem_of_lt _ _ _ hiM)
      by_cases hcond : 1 / s'.pbars.getD i 0 > s.rhos.getD i 0
      · rw [if_pos hcond]
        rw [hβeq]
        exact mul_nonneg hβ0 hepos
      · rw [if_neg hcond]
        exact hepos

/-- C5: a key stored by `predict` and consumed by exactly one successful
`learn` leaves both per-key transient maps empty afterwards (given they
were empty before the `predict`), and a `learn` whose key has no stored
entry — never predicted, or already consumed — fails with the `KeyError`
of `dict.pop` (the exception is raised before any state is touched, since
the `pop` is the first state access of `learn`). -/
theorem C5_key_round_trip :
    (∀ (β : Type) (predictB : β → Key → Ctx → List Act → List ℚ × β)
       (learnB : β → Key → Ctx → Act → ℚ → ℚ → β) (fuel : ℕ)
       (s s2 : CorralState β) (k : Key) (c c2 : Ctx) (actions chosen : List Act)
       (action : Act) (reward prob : ℚ),
       (∀ q, s.bActs q = none) → (∀ q, s.bPreds q = none) →
       corralLearn learnB fuel ((corralPredict predictB chosen s k c actions).2) k c2
         action reward prob = .ok s2 →
       (∀ q, s2.bActs q = none) ∧ (∀ q, s2.bPreds q = none))
    ∧ (∀ (β : Type) (learnB : β → Key → Ctx → Act → ℚ → ℚ → β) (fuel : ℕ)
         (s : CorralState β) (k : Key) (c : Ctx) (action : Act) (reward prob : ℚ),
       s.bActs k = none →
       corralLearn learnB fuel s k c action reward prob = .error .keyError) := by
  constructor
  · intro β predictB learnB fuel s s2 k c c2 actions chosen action reward prob hA hP hok
    obtain ⟨bacts, bpreds, ps', _, _, _, _, _, _, _, _, _, _, _, hact', hprd'⟩ :=
      corralLearn_ok_fields hok
    constructor
    · intro q
      simp only [hact']
      by_cases hqk : q = k
      · rw [if_pos hqk]
      · rw [if_neg hqk]
        simp only [corralPredict]
        rw [if_neg hqk]
        exact hA q
    · intro q
      simp only [hprd']
      by_cases hqk : q = k
      · rw [if_pos hqk]
      · rw [if_neg hqk]
        simp only [corralPredict]
        rw [if_neg hqk]
        exact hP q
  · intro β learnB fuel s k c action reward prob h
    exact corralLearn_missing_key learnB fuel s k c action reward prob h

/-- C5 witness: on the concrete two-`RandomLearner` Corral, `predict` then
one successful `learn` leaves the maps empty, and a `learn` on the fresh
state (no stored key) fails with `KeyError`. -/
theorem C5_key_round_trip_witness :
    ∃ s2 : CorralState Unit,
      corralLearn noopBaseL 0 ((corralPredict randBaseP [0, 1] sCE0 0 none [0, 1]).2) 0 none
        0 (99/100) 1 = .ok s2
      ∧ ((∀ q, s2.bActs q = none) ∧ (∀ q, s2.bPreds q = none))
      ∧ corralLearn noopBaseL 0 sCE0 5 none 0 1 1 = .error .keyError := by
  obtain ⟨s2, hok, _, _, _, _, _, _, _⟩ := learnCE
  refine ⟨s2, hok, ?_, ?_⟩
  · exact C5_key_round_trip.1 Unit randBaseP noopBaseL 0 sCE0 s2 0 none none [0, 1] [0, 1]
      0 (99/100) 1 (fun q => rfl) (fun q => rfl) hok
  · exact C5_key_round_trip.2 Unit noopBaseL 0 sCE0 5 none 0 1 1 rfl

/-- C6: along every reachable `learn` transition, each `rho_i` never
decreases and each `eta_i` never increases; when `1/p_bar_i` (with the
freshly computed smoothed weights) exceeds the current `rho_i`, `rho_i`
becomes `2/p_bar_i` — strictly larger than the old `rho_i` — and `eta_i`
is multiplied by the constant `beta`; otherwise both are unchanged.
Hypotheses `0 ≤ gamma ≤ 1`, `0 ≤ beta ≤ 1`, `0 ≤ eta` record that the
constants come from a genuine construction (`gamma = 1/T`,
`beta = exp(-1/ln T)` with horizon `T > 1`, a nonnegative learning rate). -/
theorem C6_rho_eta_rate_control {β : Type} {predictB : β → Key → Ctx → List Act → List ℚ × β}
    {learnB : β → Key → Ctx → Act → ℚ → ℚ → β} {γ βc η : ℚ} {bases0 : List β}
    {s s2 : CorralState β} {fuel : ℕ} {k : Key} {c : Ctx} {action : Act} {reward prob : ℚ}
    (hγ0 : 0 ≤ γ) (hγ1 : γ ≤ 1) (hβ0 : 0 ≤ βc) (hβ1 : βc ≤ 1) (hη : 0 ≤ η)
    (hr : CorralReach predictB learnB γ βc η bases0 s)
    (hok : corralLearn learnB fuel s k c action reward prob = .ok s2) :
    ∀ i, i < bases0.length →
      (s.rhos.getD i 0 ≤ s2.rhos.getD i 0 ∧ s2.etas.getD i 0 ≤ s.etas.getD i 0)
      ∧ (1 / s2.pbars.getD i 0 > s.rhos.getD i 0 →
          s2.rhos.getD i 0 = 2 / s2.pbars.getD i 0
          ∧ s.rhos.getD i 0 < s2.rhos.getD i 0
          ∧ s2.etas.getD i 0 = βc * s.etas.getD i 0)
      ∧ (¬ (1 / s2.pbars.getD i 0 > s.rhos.getD i 0) →
          s2.rhos.getD i 0 = s.rhos.getD i 0 ∧ s2.etas.getD i 0 = s.etas.getD i 0) := by
  intro i hi
  obtain ⟨hγeq, hβeq, hMb, hMe, hMr, hMp, hMpb, hA, hP⟩ := corralReach_lengths hr
  obtain ⟨hps, hpb, hrh, het⟩ := corralReach_values hγ0 hγ1 hβ0 hη hr
  obtain ⟨bacts, bpreds, ps', hba, hbp, hlb, hg', hb', _, hps', hpb', hr', he', hbs', hact', hprd'⟩ :=
    corralLearn_ok_fields hok
  have hiM : i < s.bases.length := by rw [hMb]; exact hi
  have hgetr : s2.rhos.getD i 0
      = if 1 / s2.pbars.getD i 0 > s.rhos.getD i 0 then 2 / s2.pbars.getD i 0
        else s.rhos.getD i 0 := by
    rw [hr']
    exact getD_map_range _ _ _ hiM _
  have hgete : s2.etas.getD i 0
      = if 1 / s2.pbars.getD i 0 > s.rhos.getD i 0 then s.beta * s.etas.getD i 0
        else s.etas.getD i 0 := by
    rw [he']
    exact getD_map_range _ _ _ hiM _
  have hrpos : 0 < s.rhos.getD i 0 := by
    refine hrh _ (getD_mem_of_lt _ _ _ ?_)
    rw [hMr]
    exact hi
  have hepos : 0 ≤ s.etas.getD i 0 := by
    refine het _ (getD_mem_of_lt _ _ _ ?_)
    rw [hMe]
    exact hi
  by_cases hcond : 1 / s2.pbars.getD i 0 > s.rhos.getD i 0
  · have hrv : s2.rhos.getD i 0 = 2 / s2.pbars.getD i 0 := by rw [hgetr, if_pos hcond]
    have hev : s2.etas.getD i 0 = s.beta * s.etas.getD i 0 := by rw [hgete, if_pos hcond]
    have hpbpos : 0 < s2.pbars.getD i 0 := one_div_pos.mp (lt_trans hrpos hcond)
    have hstrict : s.rhos.getD i 0 < 2 / s2.pbars.getD i 0 := by
      have h2 : 1 / s2.pbars.getD i 0 < 2 / s2.pbars.getD i 0 :=
        (div_lt_div_right hpbpos).mpr (by norm_num)
      linarith
    refine ⟨⟨?_, ?_⟩, fun _ => ⟨hrv, by rw [hrv]; exact hstrict, by rw [hev, hβeq]⟩,
      fun hc => absurd hcond hc⟩
    · rw [hrv]
      linarith
    · rw [hev, hβeq]
      exact mul_le_of_le_one_left hepos hβ1
  · have hrv : s2.rhos.getD i 0 = s.rhos.getD i 0 := by rw [hgetr, if_neg hcond]
    have hev : s2.etas.getD i 0 = s.etas.getD i 0 := by rw [hgete, if_neg hcond]
    exact ⟨⟨le_of_eq hrv.symm, le_of_eq hev⟩, fun hc => absurd hc hcond,
      fun _ => ⟨hrv, hev⟩⟩

/-- C6 witness: on the concrete trace `sCE0 → predict → learn`, index `0`:
`1/p_bar_0 ≈ 2.0001` does not exceed `rho_0 = 4`, so `rho` and `eta` are
unchanged. -/
theorem C6_rho_eta_rate_control_witness :
    ∃ s2 : CorralState Unit,
      corralLearn noopBaseL 0 sCE1 0 none 0 (99/100) 1 = .ok s2
      ∧ (sCE1.rhos.getD 0 0 ≤ s2.rhos.getD 0 0 ∧ s2.etas.getD 0 0 ≤ sCE1.etas.getD 0 0)
      ∧ (¬ (1 / s2.pbars.getD 0 0 > sCE1.rhos.getD 0 0) →
          s2.rhos.getD 0 0 = sCE1.rhos.getD 0 0 ∧ s2.etas.getD 0 0 = sCE1.etas.getD 0 0) := by
  obtain ⟨s2, hok, _⟩ := learnCE
  have hreach : CorralReach randBaseP noopBaseL gammaInf betaInf (3/250) [(), ()] sCE1 :=
    CorralReach.predictStep sCE0 0 none [0, 1] [0, 1] CorralReach.construct rfl (by decide)
  have h := @C6_rho_eta_rate_control Unit randBaseP noopBaseL gammaInf betaInf (3/250)
    [(), ()] sCE1 s2 0 0 none 0 (99/100) 1
    (by norm_num [gammaInf]) (by norm_num [gammaInf]) (by norm_num [betaInf])
    (by norm_num [betaInf]) (by norm_num) hreach hok 0 (by norm_num)
  exact ⟨s2, hok, h.1, h.2.2⟩

/-! ### Claim C7: equal losses leave the weights unchanged -/

theorem foldl_min_const (xs : List ℚ) (cst : ℚ) (hall : ∀ x ∈ xs, x = cst) :
    xs.foldl min cst = cst := by
  induction xs with
  | nil => rfl
  | cons y ys ih =>
    have hy : y = cst := hall y (List.mem_cons_self y ys)
    simp only [List.foldl, hy, min_self]
    exact ih (fun x hx => hall x (List.mem_cons_of_mem _ hx))

theorem foldl_max_const (xs : List ℚ) (cst : ℚ) (hall : ∀ x ∈ xs, x = cst) :
    xs.foldl max cst = cst := by
  induction xs with
  | nil => rfl
  | cons y ys ih =>
    have hy : y = cst := hall y (List.mem_cons_self y ys)
    simp only [List.foldl, hy, max_self]
    exact ih (fun x hx => hall x (List.mem_cons_of_mem _ hx))

theorem pyminD_const (l : List ℚ) (cst : ℚ) (hne : l ≠ []) (hall : ∀ x ∈ l, x = cst) :
    pyminD l = cst := by
  cases l with
  | nil => exact absurd rfl hne
  | cons x xs =>
    have hx : x = cst := hall x (List.mem_cons_self x xs)
    show xs.foldl min x = cst
    rw [hx]
    exact foldl_min_const xs cst (fun y hy => hall y (List.mem_cons_of_mem _ hy))

theorem pymaxD_const (l : List ℚ) (cst : ℚ) (hne : l ≠ []) (hall : ∀ x ∈ l, x = cst) :
    pymaxD l = cst := by
  cases l with
  | nil => exact absurd rfl hne
  | cons x xs =>
    have hx : x = cst := hall x (List.mem_cons_self x xs)
    show xs.foldl max x = cst
    rw [hx]
    exact foldl_max_const xs cst (fun y hy => hall y (List.mem_cons_of_mem _ hy))

theorem map_zip3_floor_id (ps : List ℚ) (cst : ℚ) :
    ∀ (etas losses : List ℚ),
    (∀ l ∈ losses, l = cst) → (∀ p ∈ ps, 1/100000 ≤ p) →
    ps.length = losses.length → etas.length = losses.length →
    (ps.zip (etas.zip losses)).map
      (fun x => max (1 / (1 / x.1 + x.2.1 * (x.2.2 - cst))) (1 / 100000)) = ps := by
  induction ps with
  | nil => intro etas losses _ _ _ _; simp
  | cons p pst ih =>
    intro etas losses hall hp hl1 hl2
    cases losses with
    | nil => exact absurd hl1 (by simp)
    | cons l lt =>
      cases etas with
      | nil => exact absurd hl2 (by simp)
      | cons e et =>
        have hl : l = cst := hall l (List.mem_cons_self l lt)
        have hpp : 1/100000 ≤ p := hp p (List.mem_cons_self p pst)
        have hpne : p ≠ 0 := by positivity
        simp only [List.zip_cons_cons, List.map_cons]
        congr 1
        · rw [hl, sub_self, mul_zero, add_zero, one_div_one_div]
          exact max_eq_left hpp
        · exact ih et lt (fun x hx => hall x (List.mem_cons_of_mem _ hx))
            (fun x hx => hp x (List.mem_cons_of_mem _ hx))
            (by simpa using hl1) (by simpa using hl2)

/-- The all-equal-losses closed form of the root search, for any state
whose weights sit at or above the floor. -/
theorem logBarrier_const_losses (fuel : ℕ) (ps etas losses : List ℚ) (cst : ℚ)
    (hne : losses ≠ []) (hall : ∀ l ∈ losses, l = cst)
    (hp : ∀ p ∈ ps, 1/100000 ≤ p)
    (hl1 : ps.length = losses.length) (hl2 : etas.length = losses.length) :
    lmbdaOf fuel ps etas losses = some cst
    ∧ logBarrier fuel ps etas losses = some ps := by
  have hmin : pyminD losses = cst := pyminD_const losses cst hne hall
  have hmax : pymaxD losses = cst := pymaxD_const losses cst hne hall
  have hlm : lmbdaOf fuel ps etas losses = some cst := by
    unfold lmbdaOf
    rw [if_neg hne]
    show (if pyminD losses = pymaxD losses then some (pyminD losses) else _) = some cst
    rw [hmin, hmax, if_pos rfl]
  refine ⟨hlm, ?_⟩
  unfold logBarrier
  rw [hlm, Option.map_some']
  congr 1
  exact map_zip3_floor_id ps cst etas losses hall hp hl1 hl2

/-- C7 (amended): on every reachable state of a `CorralLearner` with at
most `100000` base learners, a loss vector whose entries are all equal to
`c` makes the root search return `lmbda = c` in closed form and leaves the
weight vector `p` unchanged (every reachable `p_i` is then at least the
floor `1/100000`, so the flooring `max` is the identity).  The bound
`M ≤ 100000` is forced: with more base learners the initial weight `1/M`
lies *below* the floor and the solve floors it up (see the
counterexample). -/
theorem C7_equal_losses_fixpoint {β : Type} {predictB : β → Key → Ctx → List Act → List ℚ × β}
    {learnB : β → Key → Ctx → Act → ℚ → ℚ → β} {γ βc η : ℚ} {bases0 : List β}
    {s : CorralState β}
    (hM1 : bases0 ≠ []) (hM5 : bases0.length ≤ 100000)
    (hγ0 : 0 ≤ γ) (hγ1 : γ ≤ 1) (hβ0 : 0 ≤ βc) (hη : 0 ≤ η)
    (hr : CorralReach predictB learnB γ βc η bases0 s)
    (losses : List ℚ) (cst : ℚ) (fuel : ℕ)
    (hlen : losses.length = bases0.length) (hall : ∀ l ∈ losses, l = cst) :
    lmbdaOf fuel s.ps s.etas losses = some cst
    ∧ logBarrier fuel s.ps s.etas losses = some s.ps := by
  obtain ⟨_, _, _, hMe, _, hMp, _, _, _⟩ := corralReach_lengths hr
  obtain ⟨hps, _, _, _⟩ := corralReach_values hγ0 hγ1 hβ0 hη hr
  have hM0 : 0 < bases0.length := List.length_pos.mpr hM1
  have hfloor : ∀ p ∈ s.ps, 1/100000 ≤ p := by
    intro p hp
    rcases hps p hp with h | h
    · exact h
    · rw [h]
      have hcast : (bases0.length : ℚ) ≤ 100000 := by exact_mod_cast hM5
      have hcast0 : (0:ℚ) < (bases0.length : ℚ) := by exact_mod_cast hM0
      rw [div_le_div_iff (by norm_num) hcast0]
      linarith
  have hne : losses ≠ [] := by
    intro hcontra
    rw [hcontra] at hlen
    simp at hlen
    omega
  exact logBarrier_const_losses fuel s.ps s.etas losses cst hne hall hfloor
    (by rw [hMp, hlen]) (by rw [hMe, hlen])

/-- C7 witness: a fresh two-learner Corral with all losses equal to `1/4`. -/
theorem C7_equal_losses_fixpoint_witness :
    lmbdaOf 0 sCE0.ps sCE0.etas [1/4, 1/4] = some (1/4)
    ∧ logBarrier 0 sCE0.ps sCE0.etas [1/4, 1/4] = some sCE0.ps :=
  @C7_equal_losses_fixpoint Unit randBaseP noopBaseL gammaInf betaInf (3/250) [(), ()] sCE0
    (by simp) (by norm_num)
    (by norm_num [gammaInf]) (by norm_num [gammaInf]) (by norm_num [betaInf]) (by norm_num)
    CorralReach.construct [1/4, 1/4] (1/4) 0 (by norm_num) (by norm_num)

theorem zipWithPairRep {α β' : Type} (x : α) (y : β') :
    ∀ n : ℕ, (List.replicate n x).zip (List.replicate n y) = List.replicate n (x, y) := by
  intro n
  induction n with
  | zero => rfl
  | succ m ih => simp [List.replicate_succ, ih]

theorem replicate_value_eq {α : Type} (n : ℕ) (hn : n ≠ 0) (a b : α)
    (h : List.replicate n a = List.replicate n b) : a = b := by
  cases n with
  | zero => exact absurd rfl hn
  | succ m =>
    have h2 := congrArg (fun l => l.headD a) h
    simpa [List.replicate_succ] using h2

theorem corralInit_ps {β : Type} (bases : List β) (γ βc η : ℚ) :
    (corralInit bases γ βc η).ps = List.replicate bases.length (1 / (bases.length : ℚ)) := rfl

theorem corralInit_etas {β : Type} (bases : List β) (γ βc η : ℚ) :
    (corralInit bases γ βc η).etas = List.replicate bases.length η := rfl

/-- C7 counterexample: with `M = 100001` base learners, the fresh Corral
state is reachable, its initial weight `1/100001` lies strictly below the
floor `1/100000`, and the all-equal (all-zero) log-barrier solve floors it
up: the returned vector is *not* the unchanged `p`. -/
theorem C7_counterexample_weights_below_floor :
    CorralReach randBaseP noopBaseL gammaInf betaInf 1 (List.replicate 100001 ())
      (corralInit (List.replicate 100001 ()) gammaInf betaInf 1)
    ∧ (∃ p ∈ (corralInit (List.replicate 100001 ()) gammaInf betaInf 1).ps, p < 1/100000)
    ∧ ∀ fuel : ℕ,
        logBarrier fuel (corralInit (List.replicate 100001 ()) gammaInf betaInf 1).ps
          (corralInit (List.replicate 100001 ()) gammaInf betaInf 1).etas
          (List.replicate 100001 0)
        ≠ some ((corralInit (List.replicate 100001 ()) gammaInf betaInf 1).ps) := by
  have hps : (corralInit (List.replicate 100001 ()) gammaInf betaInf 1).ps
      = List.replicate 100001 (1 / ((100001 : ℕ) : ℚ)) := by
    rw [corralInit_ps, List.length_replicate]
  have hets : (corralInit (List.replicate 100001 ()) gammaInf betaInf 1).etas
      = List.replicate 100001 (1:ℚ) := by
    rw [corralInit_etas, List.length_replicate]
  have hnatne : (100001 : ℕ) ≠ 0 := by norm_num
  have hne : List.replicate 100001 (0:ℚ) ≠ [] := by
    intro hcontra
    have hlen := congrArg List.length hcontra
    rw [List.length_replicate] at hlen
    exact absurd hlen (by norm_num)
  refine ⟨CorralReach.construct, ?_, ?_⟩
  · refine ⟨1 / ((100001 : ℕ) : ℚ), ?_, ?_⟩
    · rw [hps]
      exact List.mem_replicate.mpr ⟨hnatne, rfl⟩
    · push_cast
      norm_num
  · intro fuel h
    rw [hps, hets] at h
    have hall : ∀ l ∈ List.replicate 100001 (0:ℚ), l = 0 :=
      fun l hl => List.eq_of_mem_replicate hl
    have hlm : lmbdaOf fuel (List.replicate 100001 (1 / ((100001 : ℕ) : ℚ)))
        (List.replicate 100001 (1:ℚ)) (List.replicate 100001 0) = some 0 := by
      unfold lmbdaOf
      rw [if_neg hne]
      show (if pyminD _ = pymaxD _ then some (pyminD _) else _) = some 0
      rw [pyminD_const _ 0 hne hall, pymaxD_const _ 0 hne hall, if_pos rfl]
    unfold logBarrier at h
    rw [hlm, Option.map_some'] at h
    rw [zipWithPairRep, zipWithPairRep, List.map_replicate] at h
    have hval := replicate_value_eq 100001 hnatne _ _ (Option.some_inj.mp h)
    push_cast at hval
    norm_num at hval

/-! ### Claim C10: the default infinite horizon -/

/-- C10: when a `CorralLearner` is built with the default `T = math.inf`,
the derived constants evaluate (exactly, in IEEE float arithmetic) to
`gamma = 1/inf = 0` and `beta = 1/exp(1/log(inf)) = 1/exp(0) = 1` (see
`gammaInf`/`betaInf`); consequently on *every* reachable state the
smoothed weights equal the raw weights (`p_bar = p`, the `gamma/M`
smoothing contributes nothing) and every `eta_i` still equals the initial
`eta`, even on rounds where `rho_i` was updated. -/
theorem C10_infinite_horizon_constants {β : Type}
    {predictB : β → Key → Ctx → List Act → List ℚ × β}
    {learnB : β → Key → Ctx → Act → ℚ → ℚ → β} {η : ℚ} {bases0 : List β}
    {s : CorralState β}
    (hr : CorralReach predictB learnB gammaInf betaInf η bases0 s) :
    s.gamma = 0 ∧ s.beta = 1 ∧ s.pbars = s.ps ∧ s.etas = List.replicate bases0.length η := by
  induction hr with
  | construct =>
    refine ⟨rfl, rfl, rfl, rfl⟩
  | predictStep s k c actions chosen hr hlen hmem ih =>
    simpa [corralPredict] using ih
  | learnStep s s' fuel k c action reward prob hr hok ih =>
    obtain ⟨hγ0', hβ0', hpbeq, heteq⟩ := ih
    obtain ⟨_, _, hMb, _, _, _, _, _, _⟩ := corralReach_lengths hr
    obtain ⟨bacts, bpreds, ps', hba, hbp, hlb, hg', hb', _, hps', hpb', hr', he', hbs', hact', hprd'⟩ :=
      corralLearn_ok_fields hok
    refine ⟨hg'.trans hγ0', hb'.trans hβ0', ?_, ?_⟩
    · rw [hpb', hps', hγ0']
      simp
    · rw [he']
      have hpoint : ∀ i ∈ List.range s.bases.length,
          (if 1 / s'.pbars.getD i 0 > s.rhos.getD i 0 then s.beta * s.etas.getD i 0
           else s.etas.getD i 0) = η := by
        intro i hi
        have hiM : i < bases0.length := by
          rw [← hMb]
          exact List.mem_range.mp hi
        have hval : s.etas.getD i 0 = η := by
          rw [heteq]
          exact getD_replicate _ _ _ _ hiM
        rw [hβ0', hval, one_mul, ite_self]
      rw [List.map_congr_left hpoint, hMb]
      rw [List.map_const', List.length_range]

/-- C10 witness: the concrete `sCE0 → predict → learn` trace keeps
`p_bar = p` and all `eta` at `3/250` after the `learn`. -/
theorem C10_infinite_horizon_constants_witness :
    ∃ s2 : CorralState Unit,
      corralLearn noopBaseL 0 sCE1 0 none 0 (99/100) 1 = .ok s2
      ∧ s2.pbars = s2.ps ∧ s2.etas = List.replicate 2 (3/250) := by
  obtain ⟨s2, hok, _⟩ := learnCE
  have hreach : CorralReach randBaseP noopBaseL gammaInf betaInf (3/250) [(), ()] s2 :=
    CorralReach.learnStep sCE1 s2 0 0 none 0 (99/100) 1
      (CorralReach.predictStep sCE0 0 none [0, 1] [0, 1] CorralReach.construct rfl (by decide))
      hok
  have h := C10_infinite_horizon_constants hreach
  exact ⟨s2, hok, h.2.2.1, h.2.2.2⟩

/-! ### Claim C8: there is no precondition validation anywhere -/

/-- C8 counterexample: the claim says a reward outside `[0, 1]` handed to
`UcbTunedLearner.learn` (which assumes rewards in `[0, 1]`) makes the
operation fail fast with an InvalidArgument condition.  False: `learn`
performs no check at all — with `reward = 2` it completes normally and
stores the out-of-range value unclamped. -/
theorem C8_counterexample_reward_accepted :
    (ucbLearn ucbInit 0 none 0 2 1).m 0 = some 2 ∧ ¬ ((2:ℚ) ≤ 1) := by
  constructor
  · simp [ucbLearn, ucbInit]
  · norm_num

/-- C8 (amended): none of the listed precondition violations is checked.
A reward outside `[0, 1]` is silently accepted and stored unclamped by
`UcbTunedLearner.learn`; an empty action set makes `RandomLearner.predict`
fail with a raw `ZeroDivisionError` (modelled `none`), makes
`EpsilonLearner.predict` fail with a raw `ValueError` from `max` of an
empty sequence, and makes a warm `UcbTunedLearner.predict` do the same —
never a descriptive InvalidArgument condition; no probability/action-count
consistency check exists anywhere. -/
theorem C8_no_precondition_validation :
    (∀ (st : UcbState) (k : Key) (c : Ctx) (a : Act) (reward p : ℚ),
       st.m a = none → (ucbLearn st k c a reward p).m a = some reward)
    ∧ randomPredict [] = none
    ∧ (∀ (st : EpsState) (k : Key) (c : Ctx), epsPredict st k c [] = none)
    ∧ (∀ (bound : UcbState → Act → ℚ) (st : UcbState) (k : Key) (c : Ctx),
        (ucbPredict bound st k c []).1 = none) := by
  refine ⟨?_, rfl, fun st k c => rfl, ?_⟩
  · intro st k c a reward p h
    simp [ucbLearn, h]
  · intro bound st k c
    unfold ucbPredict
    rw [if_neg (by simp)]
    rw [if_pos rfl]

/-- C8 witness: the no-validation behaviour at a concrete out-of-range
reward `5/2`. -/
theorem C8_no_precondition_validation_witness :
    ucbInit.m 3 = none ∧ (ucbLearn ucbInit 1 none 3 (5/2) 1).m 3 = some (5/2) :=
  ⟨rfl, C8_no_precondition_validation.1 ucbInit 1 none 3 (5/2) 1 rfl⟩

/-! ### Claim C9: the UCB warm-up phase -/

/-- One optional `learn` call between two `predict` calls (the claim allows
"no intervening learn beyond the matching one per call"). -/
def ucbApplyLearn (st : UcbState) : Option (Key × Ctx × Act × ℚ × ℚ) → UcbState
  | none => st
  | some (k, c, a, r, p) => ucbLearn st k c a r p

/-- A sequence of rounds against a fixed action list: each round is one
`predict` followed by at most one `learn`; returns the list of predicted
distributions. -/
def ucbRun (bound : UcbState → Act → ℚ) (actions : List Act) :
    List (Option (Key × Ctx × Act × ℚ × ℚ)) → UcbState → List (Option (List ℚ))
  | [], _ => []
  | la :: rest, st =>
    (ucbPredict bound st 0 none actions).1 ::
      ucbRun bound actions rest (ucbApplyLearn (ucbPredict bound st 0 none actions).2 la)

theorem ucbApplyLearn_initA (st : UcbState) (la : Option (Key × Ctx × Act × ℚ × ℚ)) :
    (ucbApplyLearn st la).initA = st.initA := by
  cases la with
  | none => rfl
  | some x =>
    obtain ⟨k, c, a, r, p⟩ := x
    rfl

theorem ucbPredict_warm (bound : UcbState → Act → ℚ) (st : UcbState) (k : Key) (c : Ctx)
    (actions : List Act) (h : st.initA < actions.length) :
    ucbPredict bound st k c actions
      = (some (oneHot actions.length st.initA), { st with initA := st.initA + 1 }) := by
  unfold ucbPredict
  rw [if_pos h]

theorem ucbRun_warm (bound : UcbState → Act → ℚ) (actions : List Act)
    (las : List (Option (Key × Ctx × Act × ℚ × ℚ))) :
    ∀ st : UcbState, las.length + st.initA ≤ actions.length →
    ucbRun bound actions las st
      = (List.range' st.initA las.length).map (fun j => some (oneHot actions.length j)) := by
  induction las with
  | nil => intro st _; rfl
  | cons la rest ih =>
    intro st h
    have hlt : st.initA < actions.length := by
      simp only [List.length_cons] at h
      omega
    show (ucbPredict bound st 0 none actions).1 ::
        ucbRun bound actions rest (ucbApplyLearn (ucbPredict bound st 0 none actions).2 la) = _
    rw [ucbPredict_warm bound st 0 none actions hlt]
    have hinit : (ucbApplyLearn { st with initA := st.initA + 1 } la).initA = st.initA + 1 :=
      ucbApplyLearn_initA _ la
    have htail := ih (ucbApplyLearn { st with initA := st.initA + 1 } la) (by
      rw [hinit]
      simp only [List.length_cons] at h
      omega)
    rw [hinit] at htail
    rw [htail]
    simp only [List.length_cons]
    rw [List.range'_succ, List.map_cons]

/-- C9: starting from a freshly constructed `UcbTunedLearner` and a fixed
action list, the first `len(actions)` rounds (each one `predict` plus at
most one matching `learn`) return one-hot distributions selecting the
actions in index order — the k-th call one-hot-selects index `k-1` — for
*every* confidence-bound function, i.e. before any bound comparison can
influence the choice. -/
theorem C9_ucb_warmup_in_order (bound : UcbState → Act → ℚ) (actions : List Act)
    (las : List (Option (Key × Ctx × Act × ℚ × ℚ))) (h : las.length ≤ actions.length) :
    ucbRun bound actions las ucbInit
      = (List.range las.length).map (fun j => some (oneHot actions.length j)) := by
  have h0 := ucbRun_warm bound actions las ucbInit (by simpa [ucbInit] using h)
  have hz : ucbInit.initA = 0 := rfl
  rw [hz] at h0
  rw [h0, List.range_eq_range']

/-- C9 witness: two actions, two rounds (a learn after the first), the
outputs are the two one-hot vectors in order. -/
theorem C9_ucb_warmup_in_order_witness :
    ucbRun (fun _ _ => 0) [5, 7] [some (0, none, 5, 1, 1), none] ucbInit
      = [some (oneHot 2 0), some (oneHot 2 1)] := by
  have h := C9_ucb_warmup_in_order (fun _ _ => 0) [5, 7] [some (0, none, 5, 1, 1), none]
    (by norm_num)
  simpa [List.range_succ] using h

/-! ### Claim C4: predict outputs are distributions -/

theorem zipWith_replicate_left {α β' : Type} (f : ℚ → α → β') (x : ℚ) (l : List α) :
    List.zipWith f (List.replicate l.length x) l = l.map (f x) := by
  induction l with
  | nil => rfl
  | cons y ys ih => simp [List.replicate_succ, ih]

theorem sum_replicate_q (n : ℕ) (x : ℚ) : (List.replicate n x).sum = n * x := by
  induction n with
  | zero => simp
  | succ m ih =>
    simp [List.replicate_succ, ih]
    push_cast
    ring

theorem sum_map_mul_left_q {α : Type} (l : List α) (c : ℚ) (f : α → ℚ) :
    (l.map (fun a => c * f a)).sum = c * (l.map f).sum := by
  induction l with
  | nil => simp
  | cons x xs ih => simp [ih]; ring

theorem sum_indicator_filter_one (n : ℕ) (p : ℕ → Prop) [DecidablePred p]
    (h : ((List.range n).filter (fun i => decide (p i))).length ≠ 0) :
    ((List.range n).map (fun i =>
      (if p i then (1:ℚ) else 0) / ((List.range n).filter (fun i => decide (p i))).length)).sum
      = 1 := by
  have h1 := sum_indicator_filter n p 1 h
  simpa using h1

theorem filter_range_len_ne_zero (n i : ℕ) (p : ℕ → Prop) [DecidablePred p]
    (hi : i < n) (hp : p i) :
    ((List.range n).filter (fun j => decide (p j))).length ≠ 0 := by
  have hmem : i ∈ (List.range n).filter (fun j => decide (p j)) :=
    List.mem_filter.mpr ⟨List.mem_range.mpr hi, by simpa using hp⟩
  intro hcontra
  rw [List.length_eq_zero] at hcontra
  rw [hcontra] at hmem
  exact List.not_mem_nil _ hmem

theorem exists_getD_eq {α : Type} (l : List α) (a d : α) (h : a ∈ l) :
    ∃ i, i < l.length ∧ l.getD i d = a := by
  obtain ⟨i, hi, hEq⟩ := List.getElem_of_mem h
  exact ⟨i, hi, by rw [List.getD_eq_getElem _ d hi, hEq]⟩

theorem zip_ind_sum_nonneg (pbs : List ℚ) (a : Act) (h : ∀ p ∈ pbs, 0 ≤ p) :
    ∀ cs : List Act,
    0 ≤ (List.zipWith (fun p b => p * (if a = b then (1:ℚ) else 0)) pbs cs).sum := by
  induction pbs with
  | nil => intro cs; simp
  | cons p pst ih =>
    intro cs
    cases cs with
    | nil => simp
    | cons b bs =>
      simp only [List.zipWith_cons_cons, List.sum_cons]
      have h1 : 0 ≤ p * (if a = b then (1:ℚ) else 0) := by
        apply mul_nonneg (h p (List.mem_cons_self _ _))
        split <;> norm_num
      have h2 := ih (fun x hx => h x (List.mem_cons_of_mem _ hx)) bs
      linarith

theorem corral_out_sum (actions : List Act) (hnd : actions.Nodup) :
    ∀ (pbs : List ℚ) (cs : List Act), cs.length = pbs.length →
    (∀ b ∈ cs, b ∈ actions) →
    (actions.map
      (fun a => (List.zipWith (fun p b => p * (if a = b then (1:ℚ) else 0)) pbs cs).sum)).sum
      = pbs.sum := by
  intro pbs
  induction pbs with
  | nil =>
    intro cs hlen _
    have : cs = [] := List.length_eq_zero.mp (by simpa using hlen)
    subst this
    simp
  | cons p pst ih =>
    intro cs hlen hsub
    cases cs with
    | nil => simp at hlen
    | cons b bs =>
      have hb : b ∈ actions := hsub b (List.mem_cons_self _ _)
      have hcount : actions.count b = 1 := List.count_eq_one_of_mem hnd hb
      simp only [List.zipWith_cons_cons, List.sum_cons]
      rw [sum_map_add actions (fun a => p * (if a = b then (1:ℚ) else 0))
        (fun a => (List.zipWith (fun p c => p * (if a = c then (1:ℚ) else 0)) pst bs).sum)]
      have hfact : (actions.map (fun a => p * (if a = b then (1:ℚ) else 0))).sum = p := by
        rw [sum_map_mul_left_q actions p (fun a => if a = b then (1:ℚ) else 0)]
        rw [sum_map_ite_eq actions b, hcount]
        norm_num
      rw [hfact, ih bs (by simpa using hlen) (fun x hx => hsub x (List.mem_cons_of_mem _ hx))]

theorem sum_map_mul_right_q {α : Type} (l : List α) (c : ℚ) (f : α → ℚ) :
    (l.map (fun a => f a * c)).sum = (l.map f).sum * c := by
  induction l with
  | nil => simp
  | cons x xs ih => simp [ih]; ring

theorem zipWith_repl_gen {α β' : Type} (f : ℚ → α → β') (x : ℚ) (l : List α) (n : ℕ)
    (h : n = l.length) :
    List.zipWith f (List.replicate n x) l = l.map (f x) := by
  subst h
  exact zipWith_replicate_left f x l

theorem sum_indicator_mem_filter (n : ℕ) (p : ℕ → Prop) [DecidablePred p]
    (h : ((List.range n).filter (fun j => decide (p j))).length ≠ 0) :
    ((List.range n).map (fun i =>
      (if i ∈ (List.range n).filter (fun j => decide (p j)) then (1:ℚ) else 0)
        / ((List.range n).filter (fun j => decide (p j))).length)).sum = 1 := by
  have hcongr : ∀ i ∈ List.range n,
      (if i ∈ (List.range n).filter (fun j => decide (p j)) then (1:ℚ) else 0)
        / ((List.range n).filter (fun j => decide (p j))).length
      = (if p i then (1:ℚ) else 0)
        / ((List.range n).filter (fun j => decide (p j))).length := by
    intro i hi
    congr 1
    by_cases hpi : p i
    · rw [if_pos hpi, if_pos (List.mem_filter.mpr ⟨hi, by simpa using hpi⟩)]
    · rw [if_neg hpi, if_neg (fun hmem => hpi (by simpa using (List.mem_filter.mp hmem).2))]
  rw [List.map_congr_left hcongr]
  exact sum_indicator_filter_one n p h

theorem oneHot_sum (n j : ℕ) (h : j < n) : (oneHot n j).sum = 1 := by
  unfold oneHot
  rw [sum_map_ite_eq (List.range n) j,
    List.count_eq_one_of_mem (List.nodup_range _) (List.mem_range.mpr h)]
  norm_num

theorem oneHot_nonneg (n j : ℕ) : ∀ x ∈ oneHot n j, 0 ≤ x := by
  intro x hx
  obtain ⟨i, _, rfl⟩ := List.mem_map.mp hx
  split <;> norm_num

/-- The `RandomLearner.predict` part of C4. -/
theorem randomPredict_dist (actions : List Act) (h : actions ≠ []) :
    ∃ out, randomPredict actions = some out ∧ out.length = actions.length
      ∧ (∀ x ∈ out, 0 ≤ x) ∧ out.sum = 1 := by
  have hn0 : (actions.length : ℚ) ≠ 0 := by
    have := List.length_pos.mpr h
    positivity
  refine ⟨randomDist actions, ?_, ?_, ?_, ?_⟩
  · unfold randomPredict
    rw [if_neg h]
  · simp [randomDist]
  · intro x hx
    rw [List.eq_of_mem_replicate hx]
    positivity
  · rw [randomDist, sum_replicate_q, mul_one_div, div_self hn0]

/-- The `EpsilonLearner.predict` part of C4. -/
theorem epsPredict_dist (st : EpsState) (k : Key) (c : Ctx) (actions : List Act)
    (h0 : 0 ≤ st.eps) (h1 : st.eps ≤ 1) (hne : actions ≠ []) :
    ∃ out, epsPredict st k c actions = some out ∧ out.length = actions.length
      ∧ (∀ x ∈ out, 0 ≤ x) ∧ out.sum = 1 := by
  have hvlen : (epsValues st c actions).length = actions.length := by simp [epsValues]
  have hvne : epsValues st c actions ≠ [] := by
    intro hcontra
    exact hne (List.map_eq_nil.mp hcontra)
  obtain ⟨i0, hi0, hgd⟩ := exists_getD_eq _ _ 0 (pymaxD_mem _ hvne)
  have hmi : epsMaxIdx st c actions
      = (List.range actions.length).filter
          (fun i => decide ((epsValues st c actions).getD i 0 = pymaxD (epsValues st c actions))) := by
    rw [epsMaxIdx, hvlen]
  have hfne : (epsMaxIdx st c actions).length ≠ 0 := by
    rw [hmi]
    exact filter_range_len_ne_zero actions.length i0 _ (hvlen ▸ hi0) hgd
  have hn0 : (actions.length : ℚ) ≠ 0 := by
    have := List.length_pos.mpr hne
    positivity
  unfold epsPredict
  rw [if_neg hne]
  have hform : List.zipWith (· + ·)
      (List.replicate actions.length (1 / actions.length * st.eps))
      ((List.range actions.length).map
        (fun i => (if i ∈ epsMaxIdx st c actions then (1:ℚ) else 0)
          / (epsMaxIdx st c actions).length * (1 - st.eps)))
      = (List.range actions.length).map
        (fun i => 1 / actions.length * st.eps
          + (if i ∈ epsMaxIdx st c actions then (1:ℚ) else 0)
            / (epsMaxIdx st c actions).length * (1 - st.eps)) := by
    rw [zipWith_repl_gen (· + ·) _ _ actions.length (by simp)]
    rw [List.map_map]
    rfl
  rw [hform]
  refine ⟨_, rfl, by simp, ?_, ?_⟩
  · intro x hx
    obtain ⟨i, _, rfl⟩ := List.mem_map.mp hx
    have ha : (0:ℚ) ≤ 1 / actions.length * st.eps := by positivity
    have hb : (0:ℚ) ≤ (if i ∈ epsMaxIdx st c actions then (1:ℚ) else 0)
        / (epsMaxIdx st c actions).length * (1 - st.eps) := by
      apply mul_nonneg
      · apply div_nonneg
        · split <;> norm_num
        · positivity
      · linarith
    linarith
  · rw [sum_map_add (List.range actions.length)
      (fun _ => 1 / actions.length * st.eps)
      (fun i => (if i ∈ epsMaxIdx st c actions then (1:ℚ) else 0)
        / (epsMaxIdx st c actions).length * (1 - st.eps))]
    have hpart1 : ((List.range actions.length).map
        (fun _ => 1 / (actions.length:ℚ) * st.eps)).sum = st.eps := by
      rw [List.map_const', List.length_range, sum_replicate_q]
      field_simp
    have hpart2 : ((List.range actions.length).map
        (fun i => (if i ∈ epsMaxIdx st c actions then (1:ℚ) else 0)
          / (epsMaxIdx st c actions).length * (1 - st.eps))).sum = 1 - st.eps := by
      rw [sum_map_mul_right_q]
      have hone : ((List.range actions.length).map
          (fun i => (if i ∈ epsMaxIdx st c actions then (1:ℚ) else 0)
            / (epsMaxIdx st c actions).length)).sum = 1 := by
        rw [hmi]
        apply sum_indicator_mem_filter
        rw [← hmi]
        exact hfne
      rw [hone, one_mul]
    rw [hpart1, hpart2]
    ring

/-- The `UcbTunedLearner.predict` part of C4 (for every bound function). -/
theorem ucbPredict_dist (bound : UcbState → Act → ℚ) (st : UcbState) (k : Key) (c : Ctx)
    (actions : List Act) (hne : actions ≠ []) :
    ∃ out st2, ucbPredict bound st k c actions = (some out, st2)
      ∧ out.length = actions.length ∧ (∀ x ∈ out, 0 ≤ x) ∧ out.sum = 1 := by
  by_cases hwarm : st.initA < actions.length
  · rw [ucbPredict_warm bound st k c actions hwarm]
    exact ⟨_, _, rfl, by simp [oneHot], oneHot_nonneg _ _,
      oneHot_sum actions.length st.initA hwarm⟩
  · have hvlen : (ucbValues bound st actions).length = actions.length := by simp [ucbValues]
    have hmi : ucbMaxIdx bound st actions
        = (List.range actions.length).filter
            (fun i => decide ((ucbValues bound st actions).getD i none
              = ucbMaxValue bound st actions)) := by
      rw [ucbMaxIdx, hvlen]
    have hpos : 0 < actions.length := List.length_pos.mpr hne
    have hfne : (ucbMaxIdx bound st actions).length ≠ 0 := by
      rw [hmi]
      by_cases hall : (ucbValues bound st actions).all (· = none)
      · have hv0 : (ucbValues bound st actions).getD 0 none = none := by
          have hlt : 0 < (ucbValues bound st actions).length := by rw [hvlen]; exact hpos
          have hmem := getD_mem_of_lt (ucbValues bound st actions) 0 none hlt
          have := List.all_eq_true.mp hall _ hmem
          simpa using this
        refine filter_range_len_ne_zero actions.length 0 _ hpos ?_
        rw [hv0, ucbMaxValue, if_pos hall]
      · have hsome : ∃ y, some y ∈ ucbValues bound st actions := by
          rw [List.all_eq_true] at hall
          push_neg at hall
          obtain ⟨v, hv, hvne2⟩ := hall
          cases v with
          | none => exact absurd (by simp) hvne2
          | some y => exact ⟨y, hv⟩
        obtain ⟨y, hy⟩ := hsome
        have hfm : (ucbValues bound st actions).filterMap id ≠ [] := by
          intro hcontra
          have : y ∈ (ucbValues bound st actions).filterMap id :=
            List.mem_filterMap.mpr ⟨some y, hy, rfl⟩
          rw [hcontra] at this
          exact List.not_mem_nil _ this
        have hmx := pymaxD_mem _ hfm
        obtain ⟨v, hv, hveq⟩ := List.mem_filterMap.mp hmx
        obtain ⟨i, hi, hgd⟩ := exists_getD_eq _ v none hv
        refine filter_range_len_ne_zero actions.length i _ (hvlen ▸ hi) ?_
        rw [hgd, ucbMaxValue, if_neg hall, ← hveq]
        cases v with
        | none => simp at hveq
        | some z =>
          simp at hveq
          rw [hveq]
          rfl
    unfold ucbPredict
    rw [if_neg hwarm, if_neg hne]
    refine ⟨_, st, rfl, by simp, ?_, ?_⟩
    · intro x hx
      obtain ⟨i, _, rfl⟩ := List.mem_map.mp hx
      apply div_nonneg
      · split <;> norm_num
      · positivity
    · rw [hmi]
      apply sum_indicator_mem_filter
      rw [← hmi]
      exact hfne

/-- The `CorralLearner.predict` part of C4: the output always has the right
length and nonnegative entries, and over a duplicate-free action list its
total mass is exactly the total `p_bar` mass of the current state. -/
theorem corralPredict_dist {β : Type} {predictB : β → Key → Ctx → List Act → List ℚ × β}
    {learnB : β → Key → Ctx → Act → ℚ → ℚ → β} {γ βc η : ℚ} {bases0 : List β}
    {s : CorralState β}
    (hγ0 : 0 ≤ γ) (hγ1 : γ ≤ 1) (hβ0 : 0 ≤ βc) (hη : 0 ≤ η)
    (hr : CorralReach predictB learnB γ βc η bases0 s)
    (chosen : List Act) (k : Key) (c : Ctx) (actions : List Act)
    (hnd : actions.Nodup) (hlen : chosen.length = s.bases.length)
    (hmem : ∀ a ∈ chosen, a ∈ actions) :
    (corralPredict predictB chosen s k c actions).1.length = actions.length
    ∧ (∀ x ∈ (corralPredict predictB chosen s k c actions).1, 0 ≤ x)
    ∧ (corralPredict predictB chosen s k c actions).1.sum = s.pbars.sum := by
  obtain ⟨_, _, hMb, _, _, _, hMpb, _, _⟩ := corralReach_lengths hr
  obtain ⟨hps, hpb, _, _⟩ := corralReach_values hγ0 hγ1 hβ0 hη hr
  have hpbpos : ∀ p ∈ s.pbars, 0 ≤ p := by
    intro p hp
    rw [hpb] at hp
    obtain ⟨q, hq, rfl⟩ := List.mem_map.mp hp
    have hq0 : 0 ≤ q := by
      rcases hps q hq with h | h
      · linarith
      · rw [h]; positivity
    have hM0 : (0:ℚ) ≤ 1 / (bases0.length : ℚ) := by positivity
    have := mul_nonneg (by linarith : (0:ℚ) ≤ 1 - γ) hq0
    have := mul_nonneg hγ0 hM0
    linarith
  refine ⟨by simp [corralPredict], ?_, ?_⟩
  · intro x hx
    obtain ⟨a, _, rfl⟩ := List.mem_map.mp hx
    exact zip_ind_sum_nonneg s.pbars a hpbpos chosen
  · show (actions.map _).sum = _
    exact corral_out_sum actions hnd s.pbars chosen (by rw [hlen, hMb, ← hMpb]) hmem

/-- C4 (amended): for `RandomLearner`, `EpsilonLearner` (with
`epsilon ∈ [0, 1]`) and `UcbTunedLearner` (for every confidence-bound
function), `predict` on any state and any nonempty action list returns a
sequence of length `len(actions)` with nonnegative entries summing to `1`
exactly.  For `CorralLearner`, on every reachable state and duplicate-free
nonempty action list the returned sequence has length `len(actions)`,
nonnegative entries, and total mass exactly `sum(p_bar)` — which is `1` in
the freshly constructed state, but after `learn` calls is only as close to
`1` as the root-finder's 4-decimal acceptance test makes it, which can be
`3·10⁻⁵` away: beyond the claimed `10⁻⁶` tolerance (see the
counterexample). -/
theorem C4_predict_distributions :
    (∀ actions : List Act, actions ≠ [] →
      ∃ out, randomPredict actions = some out ∧ out.length = actions.length
        ∧ (∀ x ∈ out, 0 ≤ x) ∧ out.sum = 1)
    ∧ (∀ (st : EpsState) (k : Key) (c : Ctx) (actions : List Act),
        0 ≤ st.eps → st.eps ≤ 1 → actions ≠ [] →
        ∃ out, epsPredict st k c actions = some out ∧ out.length = actions.length
          ∧ (∀ x ∈ out, 0 ≤ x) ∧ out.sum = 1)
    ∧ (∀ (bound : UcbState → Act → ℚ) (st : UcbState) (k : Key) (c : Ctx)
         (actions : List Act), actions ≠ [] →
        ∃ out st2, ucbPredict bound st k c actions = (some out, st2)
          ∧ out.length = actions.length ∧ (∀ x ∈ out, 0 ≤ x) ∧ out.sum = 1)
    ∧ (∀ (β : Type) (predictB : β → Key → Ctx → List Act → List ℚ × β)
         (learnB : β → Key → Ctx → Act → ℚ → ℚ → β) (γ βc η : ℚ) (bases0 : List β)
         (s : CorralState β),
        0 ≤ γ → γ ≤ 1 → 0 ≤ βc → 0 ≤ η →
        CorralReach predictB learnB γ βc η bases0 s →
        ∀ (chosen : List Act) (k : Key) (c : Ctx) (actions : List Act),
          actions.Nodup → chosen.length = s.bases.length →
          (∀ a ∈ chosen, a ∈ actions) →
          (corralPredict predictB chosen s k c actions).1.length = actions.length
          ∧ (∀ x ∈ (corralPredict predictB chosen s k c actions).1, 0 ≤ x)
          ∧ (corralPredict predictB chosen s k c actions).1.sum = s.pbars.sum)
    ∧ (∀ (β : Type) (bases0 : List β) (γ βc η : ℚ), bases0 ≠ [] →
        (corralInit bases0 γ βc η).pbars.sum = 1) := by
  refine ⟨randomPredict_dist, epsPredict_dist, ucbPredict_dist, ?_, ?_⟩
  · intro β pB lB γ βc η bases0 s hγ0 hγ1 hβ0 hη hr chosen k c actions hnd hlen hmem
    exact corralPredict_dist hγ0 hγ1 hβ0 hη hr chosen k c actions hnd hlen hmem
  · intro β bases0 γ βc η hne
    show (List.replicate bases0.length (1/(bases0.length:ℚ))).sum = 1
    have hn0 : (bases0.length : ℚ) ≠ 0 := by
      have := List.length_pos.mpr hne
      positivity
    rw [sum_replicate_q, mul_one_div, div_self hn0]

/-- C4 counterexample: the claim demands the sum be within `10⁻⁶` of `1` on
every reachable state.  False for `CorralLearner`: after one `learn` on the
concrete two-`RandomLearner` trace (`eta = 3/250`, `reward = 99/100`,
`probability = 1`), the root search accepts `lambda = 0` because
`f(0) = 100003/100006` rounds to `1.0000`, the weights sum to
`100003/100006`, and `predict` over the distinct actions `[0, 1]` returns
mass `100003/100006` — short of `1` by about `3·10⁻⁵ > 10⁻⁶`. -/
theorem C4_counterexample_sum_beyond_tolerance :
    ∃ s2 : CorralState Unit,
      CorralReach randBaseP noopBaseL gammaInf betaInf (3/250) [(), ()] s2
      ∧ ([0, 1] : List Act).Nodup
      ∧ (corralPredict randBaseP [0, 0] s2 7 none [0, 1]).1.sum = 100003/100006
      ∧ 1 - (corralPredict randBaseP [0, 0] s2 7 none [0, 1]).1.sum > 1/1000000 := by
  obtain ⟨s2, hok, hps2, hpb2, _⟩ := learnCE
  have hsum : (corralPredict randBaseP [0, 0] s2 7 none [0, 1]).1.sum = 100003/100006 := by
    simp only [corralPredict, hpb2]
    norm_num
  refine ⟨s2, ?_, by decide, hsum, by rw [hsum]; norm_num⟩
  exact CorralReach.learnStep sCE1 s2 0 0 none 0 (99/100) 1
    (CorralReach.predictStep sCE0 0 none [0, 1] [0, 1] CorralReach.construct rfl (by decide))
    hok

/-- C4 witness: the amended statement instantiated at concrete inputs for
each of the four learners and at the fresh Corral state. -/
theorem C4_predict_distributions_witness :
    (∃ out, randomPredict [4, 9] = some out ∧ out.length = [4, 9].length
      ∧ (∀ x ∈ out, 0 ≤ x) ∧ out.sum = 1)
    ∧ (∃ out, epsPredict (epsInit (1/2) false) 0 none [4, 9] = some out
        ∧ out.length = [4, 9].length ∧ (∀ x ∈ out, 0 ≤ x) ∧ out.sum = 1)
    ∧ (∃ out st2, ucbPredict (fun _ _ => 0) ucbInit 0 none [4, 9] = (some out, st2)
        ∧ out.length = [4, 9].length ∧ (∀ x ∈ out, 0 ≤ x) ∧ out.sum = 1)
    ∧ ((corralPredict randBaseP [0, 1] sCE0 0 none [0, 1]).1.length = [0, 1].length
        ∧ (∀ x ∈ (corralPredict randBaseP [0, 1] sCE0 0 none [0, 1]).1, 0 ≤ x)
        ∧ (corralPredict randBaseP [0, 1] sCE0 0 none [0, 1]).1.sum = sCE0.pbars.sum)
    ∧ (corralInit [(), ()] gammaInf betaInf (3/250)).pbars.sum = 1 :=
  ⟨C4_predict_distributions.1 [4, 9] (by simp),
   C4_predict_distributions.2.1 (epsInit (1/2) false) 0 none [4, 9]
     (by norm_num [epsInit]) (by norm_num [epsInit]) (by simp),
   C4_predict_distributions.2.2.1 (fun _ _ => 0) ucbInit 0 none [4, 9] (by simp),
   C4_predict_distributions.2.2.2.1 Unit randBaseP noopBaseL gammaInf betaInf (3/250)
     [(), ()] sCE0 (by norm_num [gammaInf]) (by norm_num [gammaInf]) (by norm_num [betaInf])
     (by norm_num) CorralReach.construct [0, 1] 0 none [0, 1] (by decide) rfl (by decide),
   C4_predict_distributions.2.2.2.2 Unit [(), ()] gammaInf betaInf (3/250) (by simp)⟩

end Coba
